import Mathlib

/-!
Verification development for the `smuggler` remote memory scanner.

This file gives a shallow embedding, in Lean 4, of the scanning and
remote-access engine of the repository, and proves (or refutes) the frozen
specification claims about it.  Machine integers are modelled as `Nat`
(address arithmetic in the source never overflows on the inputs considered;
claims quantify over mathematical values), fallible code is modelled with
`Option`/`Except`, and the OS facilities that the code drives — the
`process_vm_readv` vectored read and the `sysconf` vector-count limit —
are modelled explicitly from the external-interface section of the spec.
-/

set_option maxRecDepth 8000

namespace Smuggler

/-- A contiguous memory region for I/O (`IoVec` in `src/remote.rs`).
`len` is a `NonZero<usize>` in the source; here it is a `Nat`, and theorems
carry positivity hypotheses where the source relies on `NonZero`. -/
structure IoVec where
  base : Nat
  len  : Nat
deriving Repr, DecidableEq

/-- Total bytes of a request list (the source's
`backing_vecs.iter().map(Vec::capacity).sum()`), counted from index `c` on,
matching the `to_read` accumulator at the top of each retry-loop pass. -/
def sumFrom (reqs : List IoVec) (c : Nat) : Nat :=
  ((reqs.drop c).map IoVec.len).sum

/-- Index of the first invalid request at or after `c` (or `n` if all the
rest are valid).  Helper for the modelled syscall below. -/
def firstInvalidFrom (valid : Nat → Bool) (n c : Nat) : Nat :=
  c + ((List.range' c (n - c)).takeWhile (fun i => valid i)).length

/-- Model of the OS vectored cross-process read (`process_vm_readv`), per
spec section 6: called on the suffix of requests starting at index `c`, it
transfers whole requests in order, stopping at the first request whose
memory is invalid; it returns the total bytes read (`some`), or an outright
failure (`none`, the syscall's negative return) when the first request of
the suffix is invalid.  Which requests are invalid is the simulation oracle
`valid`, indexed by absolute request position. -/
def vmReadv (reqs : List IoVec) (valid : Nat → Bool) (c : Nat) : Option Nat :=
  if valid c = false then none
  else some (((reqs.drop c).take (firstInvalidFrom valid reqs.length c - c)).map IoVec.len).sum

/-- The `for vec in backing_vecs[current_idx..]` walk inside `read_vecs`
(`src/remote.rs` lines 142-170), which consumes the byte count `jr`
returned by one syscall against the capacities of the remaining requests.
Returns `(filled indices, failed index if any, next loop start)`; a `none`
next-start is the labelled `break 'read`.  The out-of-list case is
unreachable in the source (capacities are `NonZero` so `to_read` hits zero
at the last element); it is mapped to a halt. -/
def innerScan (reqs : List IoVec) (i jr tr : Nat) :
    List Nat × Option Nat × Option Nat :=
  if h : i < reqs.length then
    let cap := (reqs.get ⟨i, h⟩).len
    let tr' := tr - cap
    if tr' = 0 then
      -- last unresolved request: filled only on an exact read
      (if jr = cap then ([i], none, none) else ([], some i, none))
    else if cap ≤ jr then
      -- fully covered: mark success and keep consuming
      let rest := innerScan reqs (i + 1) (jr - cap) tr'
      (i :: rest.1, rest.2.1, rest.2.2)
    else
      -- first request not fully covered: failed, next call starts after it
      ([], some i, some (i + 1))
  else ([], none, none)
termination_by reqs.length - i

/-- The `'read: loop` of `read_vecs` (`src/remote.rs` lines 116-171),
instrumented: returns the list of request indices whose buffers were
completely filled, together with the call trace — one `(start index,
failed index)` entry per issued `process_vm_readv` call.  The recursive
call in the partial-read branch uses `max c' (c+1)` purely for the
termination measure; `innerScan` always reports a next start strictly
beyond the current one, so the `max` is the identity (see `readLoop_spec`). -/
def readLoop (reqs : List IoVec) (valid : Nat → Bool) (c : Nat) :
    List Nat × List (Nat × Option Nat) :=
  if h : c < reqs.length then
    match vmReadv reqs valid c with
    | none =>
      -- first request of the suffix is invalid: skip it and retry
      if c + 1 = reqs.length then ([], [(c, some c)])
      else
        let rest := readLoop reqs valid (c + 1)
        (rest.1, (c, some c) :: rest.2)
    | some jr =>
      let inner := innerScan reqs c jr (sumFrom reqs c)
      match inner.2.2 with
      | none => (inner.1, [(c, inner.2.1)])
      | some c' =>
        let rest := readLoop reqs valid (Nat.max c' (c + 1))
        (inner.1 ++ rest.1, (c, inner.2.1) :: rest.2)
  else ([], [])
termination_by reqs.length - c
decreasing_by
  · omega
  · have h2 : c + 1 ≤ Nat.max c' (c + 1) := Nat.le_max_right _ _
    have h3 : Nat.max c' (c + 1) = max c' (c + 1) := rfl
    omega

/-- The bytes of target memory covered by one request; `mem` is the target
process's memory, one byte value per address. -/
def bytesOf (mem : Nat → Nat) (r : IoVec) : List Nat :=
  (List.range r.len).map (fun k => mem (r.base + k))

/-- `read_vecs` (`src/remote.rs`): the positional result array.  A slot is
the full buffer of its request iff the retry loop completely filled that
request's local buffer (`set_len` reached its capacity); partially read
buffers stay empty and come out as `none`. -/
def read_vecs (reqs : List IoVec) (valid : Nat → Bool) (mem : Nat → Nat) :
    List (Option (List Nat)) :=
  let filled := (readLoop reqs valid 0).1
  (List.range reqs.length).map
    (fun i => if i ∈ filled then (reqs.get? i).map (bytesOf mem) else none)

/-! Helper lemmas about `firstInvalidFrom` and byte sums. -/

theorem fI_ge (valid : Nat → Bool) (n c : Nat) : c ≤ firstInvalidFrom valid n c := by
  simp [firstInvalidFrom]

theorem fI_of_invalid (valid : Nat → Bool) (n c : Nat) (h : valid c = false) :
    firstInvalidFrom valid n c = c := by
  rcases Nat.eq_zero_or_pos (n - c) with h0 | h0
  · simp [firstInvalidFrom, h0]
  · have hnc : n - c = (n - c - 1) + 1 := by omega
    rw [firstInvalidFrom, hnc, List.range'_succ, List.takeWhile_cons, h]
    simp

theorem fI_of_out (valid : Nat → Bool) (n c : Nat) (h : n ≤ c) :
    firstInvalidFrom valid n c = c := by
  have h0 : n - c = 0 := by omega
  simp [firstInvalidFrom, h0]

theorem fI_step (valid : Nat → Bool) (n c : Nat) (hv : valid c = true) (hc : c < n) :
    firstInvalidFrom valid n c = firstInvalidFrom valid n (c + 1) := by
  have hnc : n - c = (n - (c + 1)) + 1 := by omega
  rw [firstInvalidFrom, hnc, List.range'_succ, List.takeWhile_cons, hv]
  simp [firstInvalidFrom]
  omega

theorem fI_gt (valid : Nat → Bool) (n c : Nat) (hv : valid c = true) (hc : c < n) :
    c < firstInvalidFrom valid n c := by
  rw [fI_step valid n c hv hc]
  have := fI_ge valid n (c + 1)
  omega

theorem fI_le (valid : Nat → Bool) (n : Nat) : ∀ k c, n - c = k → c ≤ n →
    firstInvalidFrom valid n c ≤ n := by
  intro k
  induction k with
  | zero =>
    intro c hk hc
    have := fI_of_out valid n c (by omega)
    omega
  | succ k ih =>
    intro c hk hc
    cases hvc : valid c with
    | false => rw [fI_of_invalid valid n c hvc]; omega
    | true =>
      rw [fI_step valid n c hvc (by omega)]
      exact ih (c + 1) (by omega) (by omega)

theorem valid_of_lt_fI (valid : Nat → Bool) (n : Nat) : ∀ k c i, n - c = k → c ≤ i →
    i < firstInvalidFrom valid n c → valid i = true := by
  intro k
  induction k with
  | zero =>
    intro c i hk h1 h2
    rw [fI_of_out valid n c (by omega)] at h2
    omega
  | succ k ih =>
    intro c i hk h1 h2
    cases hvc : valid c with
    | false =>
      rw [fI_of_invalid valid n c hvc] at h2
      omega
    | true =>
      rcases Nat.eq_or_lt_of_le h1 with rfl | hlt
      · exact hvc
      · rw [fI_step valid n c hvc (by omega)] at h2
        exact ih (c + 1) i (by omega) hlt h2

theorem fI_invalid (valid : Nat → Bool) (n : Nat) : ∀ k c, n - c = k →
    firstInvalidFrom valid n c < n → valid (firstInvalidFrom valid n c) = false := by
  intro k
  induction k with
  | zero =>
    intro c hk h
    rw [fI_of_out valid n c (by omega)] at h ⊢
    omega
  | succ k ih =>
    intro c hk h
    cases hvc : valid c with
    | false => rw [fI_of_invalid valid n c hvc] at h ⊢; exact hvc
    | true =>
      rw [fI_step valid n c hvc (by omega)] at h ⊢
      exact ih (c + 1) (by omega) h

theorem sumFrom_succ (reqs : List IoVec) (c : Nat) (h : c < reqs.length) :
    sumFrom reqs c = (reqs.get ⟨c, h⟩).len + sumFrom reqs (c + 1) := by
  have hd : reqs.drop c = reqs.get ⟨c, h⟩ :: reqs.drop (c + 1) :=
    List.drop_eq_getElem_cons h
  rw [sumFrom, sumFrom, hd, List.map_cons, List.sum_cons]

theorem sumFrom_zero_iff (reqs : List IoVec) (hpl : ∀ r ∈ reqs, 0 < r.len) (c : Nat) :
    sumFrom reqs c = 0 ↔ reqs.length ≤ c := by
  constructor
  · intro h0
    by_contra hlt
    have hc : c < reqs.length := by omega
    have := sumFrom_succ reqs c hc
    have hmem : reqs.get ⟨c, hc⟩ ∈ reqs := List.get_mem _ _ _
    have := hpl _ hmem
    omega
  · intro h
    have : reqs.drop c = [] := List.drop_eq_nil_of_le h
    simp [sumFrom, this]

/-- Sum of request lengths over the index segment `[i, j)` (as sliced by the
modelled syscall). -/
def sumSeg (reqs : List IoVec) (i j : Nat) : Nat :=
  (((reqs.drop i).take (j - i)).map IoVec.len).sum

theorem sumSeg_same (reqs : List IoVec) (i : Nat) : sumSeg reqs i i = 0 := by
  simp [sumSeg]

theorem sumSeg_succ (reqs : List IoVec) (i j : Nat) (hij : i < j) (hi : i < reqs.length) :
    sumSeg reqs i j = (reqs.get ⟨i, hi⟩).len + sumSeg reqs (i + 1) j := by
  have hd : reqs.drop i = reqs.get ⟨i, hi⟩ :: reqs.drop (i + 1) :=
    List.drop_eq_getElem_cons hi
  have hj : j - i = (j - (i + 1)) + 1 := by omega
  rw [sumSeg, sumSeg, hd, hj, List.take_succ_cons, List.map_cons, List.sum_cons]

theorem vmReadv_valid (reqs : List IoVec) (valid : Nat → Bool) (c : Nat)
    (hv : valid c = true) :
    vmReadv reqs valid c
      = some (sumSeg reqs c (firstInvalidFrom valid reqs.length c)) := by
  simp [vmReadv, hv, sumSeg]

theorem vmReadv_invalid (reqs : List IoVec) (valid : Nat → Bool) (c : Nat)
    (hv : valid c = false) : vmReadv reqs valid c = none := by
  simp [vmReadv, hv]

/-- Behaviour of the inner consumption walk when fed the byte count of the
modelled syscall: with `jr` the bytes of the valid segment `[i, j)`, it
fills exactly `[i, j)`; if `j` is in range it is reported failed, and the
next call starts right after it (or the loop stops when nothing follows). -/
theorem innerScan_spec (reqs : List IoVec) (hpl : ∀ r ∈ reqs, 0 < r.len) :
    ∀ k i j, j - i = k → i < reqs.length → i ≤ j → j ≤ reqs.length →
    innerScan reqs i (sumSeg reqs i j) (sumFrom reqs i) =
      (if j = reqs.length then (List.range' i (reqs.length - i), none, none)
       else if j + 1 = reqs.length then (List.range' i (j - i), some j, none)
       else (List.range' i (j - i), some j, some (j + 1))) := by
  intro k
  induction k with
  | zero =>
    intro i j hk hi hij hj
    have hji : j = i := by omega
    subst hji
    have hcap : 0 < (reqs.get ⟨j, hi⟩).len := hpl _ (List.get_mem _ _ _)
    rw [innerScan, dif_pos hi, sumSeg_same, sumFrom_succ reqs j hi]
    dsimp only
    rw [Nat.add_sub_cancel_left]
    by_cases h0 : sumFrom reqs (j + 1) = 0
    · have hlast : j + 1 = reqs.length := by
        have := (sumFrom_zero_iff reqs hpl (j + 1)).mp h0
        omega
      rw [if_pos h0, if_neg (by omega)]
      simp [if_neg (by omega : ¬ j = reqs.length), if_pos hlast]
    · have hmore : j + 1 < reqs.length := by
        have := (sumFrom_zero_iff reqs hpl (j + 1)).not
        have hx : ¬ reqs.length ≤ j + 1 := by tauto
        omega
      rw [if_neg h0, if_neg (by omega)]
      simp [if_neg (by omega : ¬ j = reqs.length), if_neg (by omega : ¬ j + 1 = reqs.length)]
  | succ k ih =>
    intro i j hk hi hij hj
    have hlt : i < j := by omega
    have hcap : 0 < (reqs.get ⟨i, hi⟩).len := hpl _ (List.get_mem _ _ _)
    rw [innerScan, dif_pos hi, sumSeg_succ reqs i j hlt hi, sumFrom_succ reqs i hi]
    dsimp only
    rw [Nat.add_sub_cancel_left]
    by_cases h0 : sumFrom reqs (i + 1) = 0
    · have hlast : i + 1 = reqs.length := by
        have := (sumFrom_zero_iff reqs hpl (i + 1)).mp h0
        omega
      have hji : j = i + 1 := by omega
      subst hji
      rw [if_pos h0, sumSeg_same, Nat.add_zero, if_pos rfl]
      have hn : reqs.length - i = 1 := by omega
      simp [if_pos hlast.symm, hlast, hn, List.range'_one]
    · have hmore : i + 1 < reqs.length := by
        have := (sumFrom_zero_iff reqs hpl (i + 1)).not
        have hx : ¬ reqs.length ≤ i + 1 := by tauto
        omega
      rw [if_neg h0, if_pos (Nat.le_add_right _ _), Nat.add_sub_cancel_left]
      rw [ih (i + 1) j (by omega) hmore (by omega) hj]
      by_cases hjn : j = reqs.length
      · subst hjn
        rw [if_pos rfl, if_pos rfl]
        have hr : reqs.length - i = (reqs.length - (i + 1)) + 1 := by omega
        rw [hr, List.range'_succ]
      · rw [if_neg hjn, if_neg hjn]
        have hr : j - i = (j - (i + 1)) + 1 := by omega
        by_cases hj1 : j + 1 = reqs.length
        · rw [if_pos hj1, if_pos hj1, hr, List.range'_succ]
        · rw [if_neg hj1, if_neg hj1, hr, List.range'_succ]

theorem readLoop_out (reqs : List IoVec) (valid : Nat → Bool) (c : Nat)
    (h : reqs.length ≤ c) : readLoop reqs valid c = ([], []) := by
  rw [readLoop, dif_neg (by omega)]

/-- One pass of the retry loop: each `process_vm_readv` call resolves the
whole valid segment `[c, j)` (`j` the first invalid index), marks `j`
failed when it exists, and the next call starts at `j + 1`. -/
theorem readLoop_spec (reqs : List IoVec) (valid : Nat → Bool)
    (hpl : ∀ r ∈ reqs, 0 < r.len) (c : Nat) (hc : c < reqs.length) :
    readLoop reqs valid c =
      (if firstInvalidFrom valid reqs.length c = reqs.length then
        (List.range' c (reqs.length - c), [(c, none)])
       else
        (List.range' c (firstInvalidFrom valid reqs.length c - c)
            ++ (readLoop reqs valid (firstInvalidFrom valid reqs.length c + 1)).1,
         (c, some (firstInvalidFrom valid reqs.length c)) ::
            (readLoop reqs valid (firstInvalidFrom valid reqs.length c + 1)).2)) := by
  have hj0 : c ≤ firstInvalidFrom valid reqs.length c := fI_ge valid reqs.length c
  have hjn : firstInvalidFrom valid reqs.length c ≤ reqs.length :=
    fI_le valid reqs.length (reqs.length - c) c rfl (by omega)
  rw [readLoop, dif_pos hc]
  cases hv : valid c with
  | false =>
    rw [vmReadv_invalid reqs valid c hv]
    have hfi : firstInvalidFrom valid reqs.length c = c := fI_of_invalid valid reqs.length c hv
    have hne : ¬ (c = reqs.length) := by omega
    rw [hfi, if_neg hne]
    have hr0 : c - c = 0 := by omega
    by_cases hcl : c + 1 = reqs.length
    · rw [if_pos hcl, hr0]
      rw [readLoop_out reqs valid (c + 1) (by omega)]
      simp
    · rw [if_neg hcl, hr0]
      simp
  | true =>
    rw [vmReadv_valid reqs valid c hv]
    dsimp only
    rw [innerScan_spec reqs hpl (firstInvalidFrom valid reqs.length c - c) c
      (firstInvalidFrom valid reqs.length c) rfl hc hj0 hjn]
    by_cases h1 : firstInvalidFrom valid reqs.length c = reqs.length
    · rw [if_pos h1, if_pos h1]
    · rw [if_neg h1]
      by_cases h2 : firstInvalidFrom valid reqs.length c + 1 = reqs.length
      · rw [if_pos h2, if_neg h1]
        rw [readLoop_out reqs valid (firstInvalidFrom valid reqs.length c + 1) (by omega)]
        simp
      · rw [if_neg h2]
        dsimp only
        rw [if_neg h1]
        have hmax : Nat.max (firstInvalidFrom valid reqs.length c + 1) (c + 1)
            = firstInvalidFrom valid reqs.length c + 1 :=
          Nat.max_eq_left (by omega)
        rw [hmax]

/-- Which requests the retry loop completely resolves: exactly the valid
ones at or after the current start. -/
theorem readLoop_filled_iff (reqs : List IoVec) (valid : Nat → Bool)
    (hpl : ∀ r ∈ reqs, 0 < r.len) :
    ∀ k c, reqs.length - c ≤ k → ∀ i,
      (i ∈ (readLoop reqs valid c).1 ↔ c ≤ i ∧ i < reqs.length ∧ valid i = true) := by
  intro k
  induction k with
  | zero =>
    intro c hk i
    rw [readLoop_out reqs valid c (by omega)]
    simp
    omega
  | succ k ih =>
    intro c hk i
    by_cases hc : c < reqs.length
    case neg =>
      rw [readLoop_out reqs valid c (by omega)]
      simp
      omega
    have hj0 : c ≤ firstInvalidFrom valid reqs.length c := fI_ge valid reqs.length c
    have hjn : firstInvalidFrom valid reqs.length c ≤ reqs.length :=
      fI_le valid reqs.length (reqs.length - c) c rfl (by omega)
    rw [readLoop_spec reqs valid hpl c hc]
    by_cases h1 : firstInvalidFrom valid reqs.length c = reqs.length
    · rw [if_pos h1]
      simp only [List.mem_range'_1]
      constructor
      · intro hm
        refine ⟨by omega, by omega, ?_⟩
        exact valid_of_lt_fI valid reqs.length (reqs.length - c) c i rfl (by omega) (by omega)
      · intro hm
        omega
    · rw [if_neg h1]
      simp only [List.mem_append, List.mem_range'_1]
      have hinv : valid (firstInvalidFrom valid reqs.length c) = false :=
        fI_invalid valid reqs.length (reqs.length - c) c rfl (by omega)
      rw [ih (firstInvalidFrom valid reqs.length c + 1) (by omega) i]
      constructor
      · rintro (hm | hm)
        · refine ⟨by omega, by omega, ?_⟩
          exact valid_of_lt_fI valid reqs.length (reqs.length - c) c i rfl (by omega) (by omega)
        · exact ⟨by omega, hm.2.1, hm.2.2⟩
      · rintro ⟨hci, hin, hv⟩
        rcases Nat.lt_trichotomy i (firstInvalidFrom valid reqs.length c) with hlt | heq | hgt
        · left; omega
        · subst heq; rw [hv] at hinv; cases hinv
        · right; exact ⟨by omega, hin, hv⟩

/-- Claim-facing characterization of `read_vecs`: positional, full-buffer
results; `none` exactly for the invalid requests. -/
theorem read_vecs_char (reqs : List IoVec) (valid : Nat → Bool) (mem : Nat → Nat)
    (hpl : ∀ r ∈ reqs, 0 < r.len) :
    (read_vecs reqs valid mem).length = reqs.length ∧
    ∀ i (hi : i < reqs.length),
      (read_vecs reqs valid mem).get ⟨i, by simpa [read_vecs]⟩
        = if valid i then some (bytesOf mem (reqs.get ⟨i, hi⟩)) else none := by
  constructor
  · simp [read_vecs]
  · intro i hi
    have hmem := readLoop_filled_iff reqs valid hpl (reqs.length - 0) 0 (Nat.le_refl _) i
    simp only [read_vecs, List.get_eq_getElem, List.getElem_map, List.getElem_range]
    by_cases hv : valid i = true
    · have : i ∈ (readLoop reqs valid 0).1 := hmem.mpr ⟨Nat.zero_le _, hi, hv⟩
      rw [if_pos this, if_pos hv, List.get?_eq_getElem?, List.getElem?_eq_getElem hi]
      simp
    · have hnot : i ∉ (readLoop reqs valid 0).1 := fun hm => hv (hmem.mp hm).2.2
      rw [if_neg hnot, if_neg hv]

/-! Trace structure of the retry loop: call starts and failure marks. -/

/-- Well-formed call trace, starting no earlier than `c`: starts are
reached in order and every failure mark sits between its call's start and
the next call's start. -/
def TraceOK : Nat → List (Nat × Option Nat) → Prop
  | _, [] => True
  | c, e :: rest =>
    c ≤ e.1 ∧ (match e.2 with
      | none => TraceOK (e.1 + 1) rest
      | some x => e.1 ≤ x ∧ TraceOK (x + 1) rest)

theorem traceOK_mono (c c' : Nat) (t : List (Nat × Option Nat)) (h : c' ≤ c)
    (ht : TraceOK c t) : TraceOK c' t := by
  cases t with
  | nil => trivial
  | cons e rest =>
    obtain ⟨h1, h2⟩ := ht
    exact ⟨by omega, h2⟩

theorem traceOK_start_le (c : Nat) (t : List (Nat × Option Nat)) (ht : TraceOK c t) :
    ∀ e ∈ t, c ≤ e.1 := by
  induction t generalizing c with
  | nil => intro e he; cases he
  | cons e rest ih =>
    intro q hq
    obtain ⟨h1, h2⟩ := ht
    rcases List.mem_cons.mp hq with hq | hq
    · rw [hq]; exact h1
    · cases hx : e.2 with
      | none =>
        rw [hx] at h2
        have := ih (e.1 + 1) h2 q hq
        omega
      | some x =>
        rw [hx] at h2
        have := ih (x + 1) h2.2 q hq
        omega

theorem traceOK_chain (c : Nat) (t : List (Nat × Option Nat)) (ht : TraceOK c t) :
    List.Chain' (fun p q => p.1 < q.1) t := by
  induction t generalizing c with
  | nil => simp
  | cons e rest ih =>
    obtain ⟨h1, h2⟩ := ht
    rw [List.chain'_cons']
    cases hx : e.2 with
    | none =>
      rw [hx] at h2
      refine ⟨?_, ih (e.1 + 1) h2⟩
      intro q hq
      have := traceOK_start_le (e.1 + 1) rest h2 q (List.mem_of_mem_head? hq)
      omega
    | some x =>
      rw [hx] at h2
      refine ⟨?_, ih (x + 1) h2.2⟩
      intro q hq
      have := traceOK_start_le (x + 1) rest h2.2 q (List.mem_of_mem_head? hq)
      omega

theorem traceOK_pairwise (c : Nat) (t : List (Nat × Option Nat)) (ht : TraceOK c t) :
    List.Pairwise (fun p q => ∀ x, p.2 = some x → x < q.1) t := by
  induction t generalizing c with
  | nil => simp
  | cons e rest ih =>
    obtain ⟨h1, h2⟩ := ht
    cases hx : e.2 with
    | none =>
      rw [hx] at h2
      refine List.Pairwise.cons ?_ (ih (e.1 + 1) h2)
      intro q hq x hex
      rw [hex] at hx; cases hx
    | some x =>
      rw [hx] at h2
      refine List.Pairwise.cons ?_ (ih (x + 1) h2.2)
      intro q hq y hey
      rw [hx] at hey
      cases hey
      have := traceOK_start_le (x + 1) rest h2.2 q hq
      omega

theorem traceOK_readLoop (reqs : List IoVec) (valid : Nat → Bool)
    (hpl : ∀ r ∈ reqs, 0 < r.len) :
    ∀ k c, reqs.length - c ≤ k → TraceOK c (readLoop reqs valid c).2 := by
  intro k
  induction k with
  | zero =>
    intro c hk
    rw [readLoop_out reqs valid c (by omega)]
    trivial
  | succ k ih =>
    intro c hk
    by_cases hc : c < reqs.length
    case neg =>
      rw [readLoop_out reqs valid c (by omega)]
      trivial
    have hj0 : c ≤ firstInvalidFrom valid reqs.length c := fI_ge valid reqs.length c
    rw [readLoop_spec reqs valid hpl c hc]
    by_cases h1 : firstInvalidFrom valid reqs.length c = reqs.length
    · rw [if_pos h1]
      exact ⟨Nat.le_refl _, trivial⟩
    · rw [if_neg h1]
      exact ⟨Nat.le_refl _, hj0, ih (firstInvalidFrom valid reqs.length c + 1) (by omega)⟩

/-- Number of invalid requests with index in `[c, n)`. -/
def invalidCountFrom (valid : Nat → Bool) (n c : Nat) : Nat :=
  (List.range' c (n - c)).countP (fun i => valid i = false)

theorem invalidCountFrom_split (valid : Nat → Bool) (n c : Nat) (hc : c < n)
    (h1 : firstInvalidFrom valid n c < n) :
    invalidCountFrom valid n c = 1 + invalidCountFrom valid n (firstInvalidFrom valid n c + 1) := by
  have hj0 : c ≤ firstInvalidFrom valid n c := fI_ge valid n c
  have hsplit : List.range' c (n - c)
      = List.range' c (firstInvalidFrom valid n c - c)
        ++ List.range' (firstInvalidFrom valid n c) (n - firstInvalidFrom valid n c) := by
    have he : c + (firstInvalidFrom valid n c - c) = firstInvalidFrom valid n c := by omega
    have hlen : n - c = (n - firstInvalidFrom valid n c) + (firstInvalidFrom valid n c - c) := by
      omega
    rw [hlen, ← List.range'_append_1, he]
  have hsplit2 : List.range' (firstInvalidFrom valid n c) (n - firstInvalidFrom valid n c)
      = firstInvalidFrom valid n c
        :: List.range' (firstInvalidFrom valid n c + 1) (n - (firstInvalidFrom valid n c + 1)) := by
    have he : n - firstInvalidFrom valid n c = (n - (firstInvalidFrom valid n c + 1)) + 1 := by
      omega
    rw [he, List.range'_succ]
  rw [invalidCountFrom, hsplit, hsplit2, List.countP_append, List.countP_cons]
  have hz : (List.range' c (firstInvalidFrom valid n c - c)).countP
      (fun i => valid i = false) = 0 := by
    rw [List.countP_eq_zero]
    intro i hi
    rw [List.mem_range'_1] at hi
    have hv : valid i = true :=
      valid_of_lt_fI valid n (n - c) c i rfl (by omega) (by omega)
    simp [hv]
  have hone : decide (valid (firstInvalidFrom valid n c) = false) = true := by
    have := fI_invalid valid n (n - c) c rfl h1
    simp [this]
  rw [hz, hone]
  simp only [invalidCountFrom, if_true]
  omega

theorem readLoop_trace_len (reqs : List IoVec) (valid : Nat → Bool)
    (hpl : ∀ r ∈ reqs, 0 < r.len) :
    ∀ k c, reqs.length - c ≤ k → c < reqs.length →
      (readLoop reqs valid c).2.length ≤ invalidCountFrom valid reqs.length c + 1 := by
  intro k
  induction k with
  | zero => intro c hk hc; omega
  | succ k ih =>
    intro c hk hc
    have hj0 : c ≤ firstInvalidFrom valid reqs.length c := fI_ge valid reqs.length c
    have hjn : firstInvalidFrom valid reqs.length c ≤ reqs.length :=
      fI_le valid reqs.length (reqs.length - c) c rfl (by omega)
    rw [readLoop_spec reqs valid hpl c hc]
    by_cases h1 : firstInvalidFrom valid reqs.length c = reqs.length
    · rw [if_pos h1]
      simp
    · rw [if_neg h1]
      have hs := invalidCountFrom_split valid reqs.length c hc (by omega)
      by_cases h2 : firstInvalidFrom valid reqs.length c + 1 < reqs.length
      · have := ih (firstInvalidFrom valid reqs.length c + 1) (by omega) h2
        simp only [List.length_cons]
        omega
      · rw [readLoop_out reqs valid (firstInvalidFrom valid reqs.length c + 1) (by omega)]
        simp only [List.length_cons, List.length_nil]
        omega

theorem bytesOf_length (mem : Nat → Nat) (r : IoVec) : (bytesOf mem r).length = r.len := by
  simp [bytesOf]

/-- C1: for every process and every non-empty request sequence with positive
lengths, the vectored remote read returns one slot per request, positionally
aligned: slot `i` is the full `len`-byte buffer of request `i` iff that
request was read in full (its memory valid), and `none` otherwise — never a
truncated buffer. -/
theorem C1_read_many_aligned (reqs : List IoVec) (valid : Nat → Bool) (mem : Nat → Nat)
    (hne : reqs ≠ []) (hpl : ∀ r ∈ reqs, 0 < r.len) :
    (read_vecs reqs valid mem).length = reqs.length ∧
    ∀ i (hi : i < reqs.length),
      (read_vecs reqs valid mem).get ⟨i, by simpa [read_vecs]⟩
          = (if valid i then some (bytesOf mem (reqs.get ⟨i, hi⟩)) else none)
        ∧ (bytesOf mem (reqs.get ⟨i, hi⟩)).length = (reqs.get ⟨i, hi⟩).len := by
  obtain ⟨hlen, hslot⟩ := read_vecs_char reqs valid mem hpl
  refine ⟨hlen, fun i hi => ⟨hslot i hi, bytesOf_length mem _⟩⟩

/-- Witness for C1 at a concrete input: two requests, the second one
invalid. -/
theorem C1_read_many_aligned_witness :
    (([⟨0, 2⟩, ⟨100, 1⟩] : List IoVec) ≠ []
      ∧ ∀ r ∈ ([⟨0, 2⟩, ⟨100, 1⟩] : List IoVec), 0 < r.len)
    ∧ ((read_vecs [⟨0, 2⟩, ⟨100, 1⟩] (fun i => i != 1) (fun a => a % 256)).length
          = ([⟨0, 2⟩, ⟨100, 1⟩] : List IoVec).length
        ∧ ∀ i (hi : i < ([⟨0, 2⟩, ⟨100, 1⟩] : List IoVec).length),
          (read_vecs [⟨0, 2⟩, ⟨100, 1⟩] (fun i => i != 1) (fun a => a % 256)).get
              ⟨i, by simpa [read_vecs]⟩
            = (if (fun i => i != 1) i then
                some (bytesOf (fun a => a % 256) (([⟨0, 2⟩, ⟨100, 1⟩] : List IoVec).get ⟨i, hi⟩))
               else none)
          ∧ (bytesOf (fun a => a % 256) (([⟨0, 2⟩, ⟨100, 1⟩] : List IoVec).get ⟨i, hi⟩)).length
            = (([⟨0, 2⟩, ⟨100, 1⟩] : List IoVec).get ⟨i, hi⟩).len) :=
  ⟨⟨by decide, by decide⟩,
    C1_read_many_aligned [⟨0, 2⟩, ⟨100, 1⟩] (fun i => i != 1) (fun a => a % 256)
      (by decide) (by decide)⟩

/-- C3: for every non-empty request sequence with positive lengths, the
retry loop terminates after at most one call per unreadable request plus
one final call, its call start indices strictly increase, and no call
starts at or before a request marked failed by an earlier call (every
failed request is skipped by all subsequent calls). -/
theorem C3_retry_call_structure (reqs : List IoVec) (valid : Nat → Bool)
    (hne : reqs ≠ []) (hpl : ∀ r ∈ reqs, 0 < r.len) :
    (readLoop reqs valid 0).2.length ≤ invalidCountFrom valid reqs.length 0 + 1
    ∧ List.Chain' (fun p q => p.1 < q.1) (readLoop reqs valid 0).2
    ∧ List.Pairwise (fun p q => ∀ f, p.2 = some f → f < q.1) (readLoop reqs valid 0).2 := by
  have hpos : 0 < reqs.length := List.length_pos.mpr hne
  have hok := traceOK_readLoop reqs valid hpl reqs.length 0 (by omega)
  exact ⟨readLoop_trace_len reqs valid hpl reqs.length 0 (by omega) hpos,
    traceOK_chain 0 _ hok, traceOK_pairwise 0 _ hok⟩

/-- Witness for C3 at a concrete input: three requests with the middle one
invalid. -/
theorem C3_retry_call_structure_witness :
    (([⟨0, 1⟩, ⟨10, 2⟩, ⟨20, 1⟩] : List IoVec) ≠ []
      ∧ ∀ r ∈ ([⟨0, 1⟩, ⟨10, 2⟩, ⟨20, 1⟩] : List IoVec), 0 < r.len)
    ∧ ((readLoop [⟨0, 1⟩, ⟨10, 2⟩, ⟨20, 1⟩] (fun i => i != 1) 0).2.length
          ≤ invalidCountFrom (fun i => i != 1)
              ([⟨0, 1⟩, ⟨10, 2⟩, ⟨20, 1⟩] : List IoVec).length 0 + 1
        ∧ List.Chain' (fun p q => p.1 < q.1)
            (readLoop [⟨0, 1⟩, ⟨10, 2⟩, ⟨20, 1⟩] (fun i => i != 1) 0).2
        ∧ List.Pairwise (fun p q => ∀ f, p.2 = some f → f < q.1)
            (readLoop [⟨0, 1⟩, ⟨10, 2⟩, ⟨20, 1⟩] (fun i => i != 1) 0).2) :=
  ⟨⟨by decide, by decide⟩,
    C3_retry_call_structure [⟨0, 1⟩, ⟨10, 2⟩, ⟨20, 1⟩] (fun i => i != 1)
      (by decide) (by decide)⟩

/-! Region catalog and batch planner (`src/proc_maps.rs`). -/

/-- Memory permissions of one region (`Permissions` in `src/proc_maps.rs`). -/
structure Permissions where
  read    : Bool
  write   : Bool
  execute : Bool
  shared  : Bool
deriving Repr, DecidableEq

/-- A half-open `u64` address range (`Range<u64>`); `stop` is the source's
`end`, which is a keyword in Lean. -/
structure MRange where
  start : Nat
  stop  : Nat
deriving Repr, DecidableEq

/-- A region of `/proc/pid/maps` (`Region` in `src/proc_maps.rs`).  The
backing path is modelled as its character list (Lean's `String` primitives
do not reduce in the kernel; a Rust `String` is its character sequence). -/
structure Region where
  addr  : MRange
  perms : Permissions
  path  : Option (List Char)
deriving Repr, DecidableEq

/-- The amount of memory to read in a single go when scanning
(`CHUNK_SIZE` in `src/scanner.rs`). -/
def CHUNK_SIZE : Nat := 1024 * 1024 * 1024

/-- Modelled from the spec (section 6): the OS's maximum number of iovecs
per `process_vm_readv` call, discovered by the source at startup via
`sysconf(_SC_IOV_MAX)` and cached in the `IOV_MAX` static of
`src/scanner.rs`; its value on Linux is 1024. -/
def IOV_MAX : Nat := 1024

/-- The clipping pass at the head of `Maps::chunks`: clip every region to
the requested range and drop the empty results. -/
def clipRegions (regs : List Region) (lo hi : Nat) : List MRange :=
  (regs.map (fun r => MRange.mk (Nat.max r.addr.start lo) (Nat.min r.addr.stop hi))).filter
    (fun r => decide (r.start < r.stop))

/-- Total bytes covered by a range list. -/
def totalLen (rs : List MRange) : Nat := (rs.map (fun r => r.stop - r.start)).sum

/-- Total bytes of a batch. -/
def sumLens (b : List IoVec) : Nat := (b.map IoVec.len).sum

/-- One `from_fn` pull of `Maps::chunks` (`src/proc_maps.rs` lines
254-291): the `while let Some(region) = regions.first_mut()` loop.  Builds
one batch within the byte budget `remaining`, returning the batch and what
is left of the region queue (with a partially consumed head region
advanced, as the source mutates `region.start`). -/
def mkBatch : List MRange → Nat → List IoVec × List MRange
  | [], _ => ([], [])
  | r :: rest, remaining =>
    let region_len := r.stop - r.start
    if region_len = 0 then mkBatch rest remaining
    else if region_len ≤ remaining then
      -- entire region fits in the current chunk
      let rem' := remaining - region_len
      if rem' = 0 then ([IoVec.mk r.start region_len], rest)
      else
        let next := mkBatch rest rem'
        (IoVec.mk r.start region_len :: next.1, next.2)
    else
      -- split region: take a partial chunk and advance the region start
      let take_len := Nat.min remaining region_len
      ([IoVec.mk r.start take_len], MRange.mk (r.start + take_len) r.stop :: rest)

theorem mkBatch_total : ∀ (regs : List MRange) (rem : Nat),
    totalLen (mkBatch regs rem).2 + sumLens (mkBatch regs rem).1 = totalLen regs := by
  intro regs
  induction regs with
  | nil => intro rem; simp [mkBatch, totalLen, sumLens]
  | cons r rest ih =>
    intro rem
    rw [mkBatch]
    dsimp only
    by_cases h0 : r.stop - r.start = 0
    · rw [if_pos h0]
      have := ih rem
      simp only [totalLen, List.map_cons, List.sum_cons, h0, Nat.zero_add] at *
      omega
    · rw [if_neg h0]
      by_cases h1 : r.stop - r.start ≤ rem
      · rw [if_pos h1]
        by_cases h2 : rem - (r.stop - r.start) = 0
        · rw [if_pos h2]
          simp [totalLen, sumLens]
          omega
        · rw [if_neg h2]
          have := ih (rem - (r.stop - r.start))
          simp only [totalLen, sumLens, List.map_cons, List.sum_cons] at *
          omega
      · rw [if_neg h1]
        simp only [totalLen, sumLens, List.map_cons, List.sum_cons]
        have hmin : Nat.min rem (r.stop - r.start) ≤ r.stop - r.start := Nat.min_le_right _ _
        simp only [List.map_nil, List.sum_nil]
        omega

theorem mkBatch_batch_pos : ∀ (regs : List MRange) (rem : Nat), 1 ≤ rem →
    ∀ iv ∈ (mkBatch regs rem).1, 1 ≤ iv.len := by
  intro regs
  induction regs with
  | nil => intro rem _ iv hiv; simp [mkBatch] at hiv
  | cons r rest ih =>
    intro rem hrem iv hiv
    rw [mkBatch] at hiv
    dsimp only at hiv
    by_cases h0 : r.stop - r.start = 0
    · rw [if_pos h0] at hiv
      exact ih rem hrem iv hiv
    · rw [if_neg h0] at hiv
      by_cases h1 : r.stop - r.start ≤ rem
      · rw [if_pos h1] at hiv
        by_cases h2 : rem - (r.stop - r.start) = 0
        · rw [if_pos h2] at hiv
          simp at hiv
          subst hiv
          simpa using Nat.one_le_iff_ne_zero.mpr h0
        · rw [if_neg h2] at hiv
          simp at hiv
          rcases hiv with hiv | hiv
          · subst hiv
            simpa using Nat.one_le_iff_ne_zero.mpr h0
          · exact ih (rem - (r.stop - r.start)) (by omega) iv hiv
      · rw [if_neg h1] at hiv
        simp at hiv
        subst hiv
        simp
        omega

theorem mkBatch_sum_le : ∀ (regs : List MRange) (rem : Nat),
    sumLens (mkBatch regs rem).1 ≤ rem := by
  intro regs
  induction regs with
  | nil => intro rem; simp [mkBatch, sumLens]
  | cons r rest ih =>
    intro rem
    rw [mkBatch]
    dsimp only
    by_cases h0 : r.stop - r.start = 0
    · rw [if_pos h0]; exact ih rem
    · rw [if_neg h0]
      by_cases h1 : r.stop - r.start ≤ rem
      · rw [if_pos h1]
        by_cases h2 : rem - (r.stop - r.start) = 0
        · rw [if_pos h2]
          simp [sumLens]
          omega
        · rw [if_neg h2]
          have := ih (rem - (r.stop - r.start))
          simp only [sumLens, List.map_cons, List.sum_cons] at *
          omega
      · rw [if_neg h1]
        simp [sumLens]

theorem mkBatch_empty : ∀ (regs : List MRange) (rem : Nat), 1 ≤ rem →
    (mkBatch regs rem).1 = [] → ∀ r ∈ regs, r.stop - r.start = 0 := by
  intro regs
  induction regs with
  | nil => intro rem _ _ r hr; cases hr
  | cons r rest ih =>
    intro rem hrem hnil q hq
    rw [mkBatch] at hnil
    dsimp only at hnil
    by_cases h0 : r.stop - r.start = 0
    · rw [if_pos h0] at hnil
      rcases List.mem_cons.mp hq with hq | hq
      · rw [hq]; exact h0
      · exact ih rem hrem hnil q hq
    · rw [if_neg h0] at hnil
      by_cases h1 : r.stop - r.start ≤ rem
      · rw [if_pos h1] at hnil
        by_cases h2 : rem - (r.stop - r.start) = 0
        · rw [if_pos h2] at hnil; cases hnil
        · rw [if_neg h2] at hnil; cases hnil
      · rw [if_neg h1] at hnil; cases hnil

/-- The drained `Maps::chunks` iterator: keep pulling batches until one
comes back empty (the iterator's `None`). -/
def chunksList (regions : List MRange) : List (List IoVec) :=
  if h : (mkBatch regions CHUNK_SIZE).1 = [] then []
  else (mkBatch regions CHUNK_SIZE).1 :: chunksList (mkBatch regions CHUNK_SIZE).2
termination_by totalLen regions
decreasing_by
  have ht := mkBatch_total regions CHUNK_SIZE
  have hpos : 1 ≤ sumLens (mkBatch regions CHUNK_SIZE).1 := by
    cases hb : (mkBatch regions CHUNK_SIZE).1 with
    | nil => exact absurd hb h
    | cons x xs =>
      have hx := mkBatch_batch_pos regions CHUNK_SIZE (by norm_num [CHUNK_SIZE]) x
        (by rw [hb]; exact List.mem_cons_self x xs)
      simp only [sumLens, hb, List.map_cons, List.sum_cons]
      omega
  omega

/-- `Maps::chunks` (`src/proc_maps.rs` lines 243-293): clip the catalog's
regions to the range, then emit byte-budgeted batches. -/
def chunks (regs : List Region) (lo hi : Nat) : List (List IoVec) :=
  chunksList (clipRegions regs lo hi)

theorem totalLen_le_mem (regs : List MRange) (r : MRange) (hr : r ∈ regs) :
    r.stop - r.start ≤ totalLen regs := by
  induction regs with
  | nil => cases hr
  | cons q rest ih =>
    rcases List.mem_cons.mp hr with hq | hq
    · rw [hq]
      simp only [totalLen, List.map_cons, List.sum_cons]
      omega
    · have := ih hq
      simp only [totalLen, List.map_cons, List.sum_cons] at *
      omega

theorem sumLens_pos_of_ne_nil (b : List IoVec) (h : ∀ iv ∈ b, 1 ≤ iv.len)
    (hne : b ≠ []) : 1 ≤ sumLens b := by
  cases b with
  | nil => exact absurd rfl hne
  | cons x xs =>
    have := h x (List.mem_cons_self x xs)
    simp only [sumLens, List.map_cons, List.sum_cons]
    omega

/-- Exact tiling: the request list reconstructs the range list in order —
each range is covered by consecutive requests, head to tail, with no gap,
no overlap and nothing left over (empty ranges are skipped). -/
def tiles (ivs : List IoVec) (rs : List MRange) : Bool :=
  match rs with
  | [] => ivs.isEmpty
  | r :: rs2 =>
    if r.stop ≤ r.start then tiles ivs rs2
    else match ivs with
      | [] => false
      | iv :: ivs2 =>
        if h : iv.base = r.start ∧ 1 ≤ iv.len ∧ iv.len ≤ r.stop - r.start then
          tiles ivs2 (MRange.mk (r.start + iv.len) r.stop :: rs2)
        else false
termination_by 2 * totalLen rs + rs.length
decreasing_by
  · simp only [totalLen, List.map_cons, List.sum_cons, List.length_cons]
    omega
  · simp only [totalLen, List.map_cons, List.sum_cons, List.length_cons]
    omega

theorem tiles_nil_eq (ivs : List IoVec) : tiles ivs [] = ivs.isEmpty := by
  rw [tiles.eq_def]

theorem tiles_cons_skip (ivs : List IoVec) (r : MRange) (rs2 : List MRange)
    (h : r.stop ≤ r.start) : tiles ivs (r :: rs2) = tiles ivs rs2 := by
  rw [tiles.eq_def]
  simp only [if_pos h]

theorem tiles_cons_nil (r : MRange) (rs2 : List MRange)
    (h : ¬ r.stop ≤ r.start) : tiles [] (r :: rs2) = false := by
  rw [tiles.eq_def]
  simp only [if_neg h]

theorem tiles_cons_cons (iv : IoVec) (ivs2 : List IoVec) (r : MRange) (rs2 : List MRange)
    (h : ¬ r.stop ≤ r.start) :
    tiles (iv :: ivs2) (r :: rs2) =
      if iv.base = r.start ∧ 1 ≤ iv.len ∧ iv.len ≤ r.stop - r.start then
        tiles ivs2 (MRange.mk (r.start + iv.len) r.stop :: rs2)
      else false := by
  rw [tiles.eq_def]
  simp only [if_neg h]
  rw [dite_eq_ite]

theorem tiles_nil_of_all_empty : ∀ (regs : List MRange),
    (∀ r ∈ regs, r.stop - r.start = 0) → tiles [] regs = true := by
  intro regs
  induction regs with
  | nil => intro _; rw [tiles_nil_eq]; rfl
  | cons r rest ih =>
    intro hall
    have h0 : r.stop ≤ r.start := by
      have := hall r (List.mem_cons_self r rest)
      omega
    rw [tiles_cons_skip _ _ _ h0]
    exact ih (fun q hq => hall q (List.mem_cons_of_mem r hq))

/-- One batch of the planner, followed by a tiling of its leftover queue,
tiles the original queue. -/
theorem mkBatch_tiles : ∀ (regs : List MRange) (rem : Nat), 1 ≤ rem →
    ∀ ivs, tiles ivs (mkBatch regs rem).2 = true →
      tiles ((mkBatch regs rem).1 ++ ivs) regs = true := by
  intro regs
  induction regs with
  | nil =>
    intro rem _ ivs h
    simpa [mkBatch] using h
  | cons r rest ih =>
    intro rem hrem ivs h
    rw [mkBatch] at h ⊢
    dsimp only at h ⊢
    by_cases h0 : r.stop - r.start = 0
    · rw [if_pos h0] at h ⊢
      rw [tiles_cons_skip _ _ _ (by omega)]
      exact ih rem hrem ivs h
    · rw [if_neg h0] at h ⊢
      by_cases h1 : r.stop - r.start ≤ rem
      · rw [if_pos h1] at h ⊢
        by_cases h2 : rem - (r.stop - r.start) = 0
        · rw [if_pos h2] at h ⊢
          rw [List.cons_append, List.nil_append,
            tiles_cons_cons _ _ _ _ (by omega), if_pos ⟨rfl, by dsimp only; omega, by dsimp only; omega⟩]
          rw [tiles_cons_skip _ _ _ (by simp; omega)]
          exact h
        · rw [if_neg h2] at h ⊢
          rw [List.cons_append,
            tiles_cons_cons _ _ _ _ (by omega), if_pos ⟨rfl, by dsimp only; omega, by dsimp only; omega⟩]
          rw [tiles_cons_skip _ _ _ (by simp; omega)]
          exact ih (rem - (r.stop - r.start)) (by omega) ivs h
      · rw [if_neg h1] at h ⊢
        have hmin1 : 1 ≤ Nat.min rem (r.stop - r.start) := by
          simp [Nat.le_min]
          omega
        have hmin2 : Nat.min rem (r.stop - r.start) ≤ r.stop - r.start := Nat.min_le_right _ _
        rw [List.cons_append, List.nil_append,
          tiles_cons_cons _ _ _ _ (by omega), if_pos ⟨rfl, hmin1, hmin2⟩]
        exact h

/-- The emitted batches, concatenated in order, tile the clipped region
queue exactly. -/
theorem chunksList_tiles : ∀ (k : Nat) (regs : List MRange), totalLen regs ≤ k →
    tiles (chunksList regs).flatten regs = true := by
  intro k
  induction k with
  | zero =>
    intro regs hk
    rw [chunksList]
    by_cases hb : (mkBatch regs CHUNK_SIZE).1 = []
    · rw [dif_pos hb]
      apply tiles_nil_of_all_empty
      intro r hr
      have := totalLen_le_mem regs r hr
      omega
    · exfalso
      have ht := mkBatch_total regs CHUNK_SIZE
      have hpos := sumLens_pos_of_ne_nil (mkBatch regs CHUNK_SIZE).1
        (mkBatch_batch_pos regs CHUNK_SIZE (by norm_num [CHUNK_SIZE])) hb
      omega
  | succ k ih =>
    intro regs hk
    rw [chunksList]
    by_cases hb : (mkBatch regs CHUNK_SIZE).1 = []
    · rw [dif_pos hb]
      apply tiles_nil_of_all_empty
      intro r hr
      by_contra hne
      have := mkBatch_empty regs CHUNK_SIZE (by norm_num [CHUNK_SIZE]) hb r hr
      omega
    · rw [dif_neg hb]
      rw [List.flatten_cons]
      have ht := mkBatch_total regs CHUNK_SIZE
      have hpos := sumLens_pos_of_ne_nil (mkBatch regs CHUNK_SIZE).1
        (mkBatch_batch_pos regs CHUNK_SIZE (by norm_num [CHUNK_SIZE])) hb
      exact mkBatch_tiles regs CHUNK_SIZE (by norm_num [CHUNK_SIZE]) _
        (ih (mkBatch regs CHUNK_SIZE).2 (by omega))

theorem chunksList_sum_le : ∀ (k : Nat) (regs : List MRange), totalLen regs ≤ k →
    ∀ b ∈ chunksList regs, sumLens b ≤ CHUNK_SIZE := by
  intro k
  induction k with
  | zero =>
    intro regs hk b hb
    rw [chunksList] at hb
    by_cases hn : (mkBatch regs CHUNK_SIZE).1 = []
    · rw [dif_pos hn] at hb; cases hb
    · exfalso
      have ht := mkBatch_total regs CHUNK_SIZE
      have hpos := sumLens_pos_of_ne_nil (mkBatch regs CHUNK_SIZE).1
        (mkBatch_batch_pos regs CHUNK_SIZE (by norm_num [CHUNK_SIZE])) hn
      omega
  | succ k ih =>
    intro regs hk b hb
    rw [chunksList] at hb
    by_cases hn : (mkBatch regs CHUNK_SIZE).1 = []
    · rw [dif_pos hn] at hb; cases hb
    · rw [dif_neg hn] at hb
      have ht := mkBatch_total regs CHUNK_SIZE
      have hpos := sumLens_pos_of_ne_nil (mkBatch regs CHUNK_SIZE).1
        (mkBatch_batch_pos regs CHUNK_SIZE (by norm_num [CHUNK_SIZE])) hn
      rcases List.mem_cons.mp hb with hb | hb
      · rw [hb]; exact mkBatch_sum_le regs CHUNK_SIZE
      · exact ih (mkBatch regs CHUNK_SIZE).2 (by omega) b hb

theorem chunksList_iv_pos : ∀ (k : Nat) (regs : List MRange), totalLen regs ≤ k →
    ∀ b ∈ chunksList regs, ∀ iv ∈ b, 1 ≤ iv.len := by
  intro k
  induction k with
  | zero =>
    intro regs hk b hb
    rw [chunksList] at hb
    by_cases hn : (mkBatch regs CHUNK_SIZE).1 = []
    · rw [dif_pos hn] at hb; cases hb
    · exfalso
      have ht := mkBatch_total regs CHUNK_SIZE
      have hpos := sumLens_pos_of_ne_nil (mkBatch regs CHUNK_SIZE).1
        (mkBatch_batch_pos regs CHUNK_SIZE (by norm_num [CHUNK_SIZE])) hn
      omega
  | succ k ih =>
    intro regs hk b hb
    rw [chunksList] at hb
    by_cases hn : (mkBatch regs CHUNK_SIZE).1 = []
    · rw [dif_pos hn] at hb; cases hb
    · rw [dif_neg hn] at hb
      have ht := mkBatch_total regs CHUNK_SIZE
      have hpos := sumLens_pos_of_ne_nil (mkBatch regs CHUNK_SIZE).1
        (mkBatch_batch_pos regs CHUNK_SIZE (by norm_num [CHUNK_SIZE])) hn
      rcases List.mem_cons.mp hb with hb | hb
      · rw [hb]
        exact mkBatch_batch_pos regs CHUNK_SIZE (by norm_num [CHUNK_SIZE])
      · exact ih (mkBatch regs CHUNK_SIZE).2 (by omega) b hb

/-- The request stream sits at or beyond `lo` and the requests' address
spans follow one another without ever going backwards. -/
def spanOrdered : Nat → List IoVec → Bool
  | _, [] => true
  | lo, iv :: ivs => decide (lo ≤ iv.base) && spanOrdered (iv.base + iv.len) ivs

/-- A tiling of a sorted, well-formed range queue is span-ordered. -/
theorem tiles_spanOrdered : ∀ (m : Nat) (rs : List MRange) (ivs : List IoVec) (lo : Nat),
    2 * totalLen rs + rs.length ≤ m →
    tiles ivs rs = true →
    (∀ r ∈ rs, lo ≤ r.start ∧ r.start ≤ r.stop) →
    List.Pairwise (fun a b => a.stop ≤ b.start) rs →
    spanOrdered lo ivs = true := by
  intro m
  induction m with
  | zero =>
    intro rs ivs lo hm ht _ _
    have hrs : rs = [] := by
      cases rs with
      | nil => rfl
      | cons r rs2 => simp at hm
    subst hrs
    rw [tiles_nil_eq] at ht
    rw [List.isEmpty_iff] at ht
    subst ht
    rfl
  | succ m ih =>
    intro rs ivs lo hm ht hwf hpw
    cases rs with
    | nil =>
      rw [tiles_nil_eq] at ht
      rw [List.isEmpty_iff] at ht
      subst ht
      rfl
    | cons r rs2 =>
      have hlen0 : 2 * totalLen rs2 + rs2.length ≤ m := by
        simp only [totalLen, List.map_cons, List.sum_cons, List.length_cons] at hm ⊢
        omega
      have hhead := hwf r (List.mem_cons_self r rs2)
      by_cases hsk : r.stop ≤ r.start
      · rw [tiles_cons_skip _ _ _ hsk] at ht
        refine ih rs2 ivs lo hlen0 ht ?_ hpw.of_cons
        intro q hq
        have hq1 := hwf q (List.mem_cons_of_mem r hq)
        have hq2 := (List.pairwise_cons.mp hpw).1 q hq
        exact ⟨by omega, hq1.2⟩
      · cases ivs with
        | nil => rw [tiles_cons_nil _ _ hsk] at ht; cases ht
        | cons iv ivs2 =>
          rw [tiles_cons_cons _ _ _ _ hsk] at ht
          by_cases hcond : iv.base = r.start ∧ 1 ≤ iv.len ∧ iv.len ≤ r.stop - r.start
          case neg => rw [if_neg hcond] at ht; cases ht
          rw [if_pos hcond] at ht
          obtain ⟨hbase, hlen1, hlen2⟩ := hcond
          rw [spanOrdered]
          have hlo : lo ≤ iv.base := by omega
          rw [Bool.and_eq_true, decide_eq_true_eq]
          refine ⟨hlo, ?_⟩
          have hm2 : 2 * totalLen (MRange.mk (r.start + iv.len) r.stop :: rs2)
              + (MRange.mk (r.start + iv.len) r.stop :: rs2).length ≤ m := by
            simp only [totalLen, List.map_cons, List.sum_cons, List.length_cons] at hm ⊢
            omega
          refine ih _ ivs2 (iv.base + iv.len) hm2 ht ?_ ?_
          · intro q hq
            rcases List.mem_cons.mp hq with hq | hq
            · rw [hq]
              dsimp only
              omega
            · have hq1 := hwf q (List.mem_cons_of_mem r hq)
              have hq2 := (List.pairwise_cons.mp hpw).1 q hq
              exact ⟨by omega, hq1.2⟩
          · rw [List.pairwise_cons]
            refine ⟨?_, hpw.of_cons⟩
            intro q hq
            have hq2 := (List.pairwise_cons.mp hpw).1 q hq
            dsimp only
            omega

theorem clip_wf (regs : List Region) (lo hi : Nat) :
    ∀ r ∈ clipRegions regs lo hi, 0 ≤ r.start ∧ r.start ≤ r.stop := by
  intro r hr
  obtain ⟨_, hlt⟩ := List.mem_filter.mp hr
  rw [decide_eq_true_eq] at hlt
  exact ⟨Nat.zero_le _, by omega⟩

theorem clip_pairwise (regs : List Region) (lo hi : Nat)
    (h : List.Pairwise (fun a b => a.addr.stop ≤ b.addr.start) regs) :
    List.Pairwise (fun a b => a.stop ≤ b.start) (clipRegions regs lo hi) := by
  apply List.Pairwise.sublist (List.filter_sublist _)
  apply h.map
  intro a b hab
  dsimp only
  have h1 : Nat.min a.addr.stop hi ≤ a.addr.stop := Nat.min_le_left _ _
  have h2 : b.addr.start ≤ Nat.max b.addr.start lo := Nat.le_max_left _ _
  omega

/-- Span-ordering of the full request stream, for an ascending
non-overlapping catalog. -/
theorem chunks_spanOrdered (regs : List Region) (lo hi : Nat)
    (hpw : List.Pairwise (fun a b => a.addr.stop ≤ b.addr.start) regs) :
    spanOrdered 0 (chunks regs lo hi).flatten = true := by
  refine tiles_spanOrdered
    (2 * totalLen (clipRegions regs lo hi) + (clipRegions regs lo hi).length)
    (clipRegions regs lo hi) _ 0 (Nat.le_refl _)
    (chunksList_tiles (totalLen (clipRegions regs lo hi)) _ (Nat.le_refl _)) ?_
    (clip_pairwise regs lo hi hpw)
  intro r hr
  exact clip_wf regs lo hi r hr

/-- C2: concatenating, in order, the requests of all batches emitted by
the planner tiles the clipped input regions exactly (no gap, no overlap,
empty clips discarded, oversized regions split into contiguous
sub-ranges); no batch exceeds the `CHUNK_SIZE` byte budget; and when the
catalog is ascending and non-overlapping the whole request stream is in
ascending address order within and across batches. -/
theorem C2_chunks_partition (regs : List Region) (lo hi : Nat) :
    tiles (chunks regs lo hi).flatten (clipRegions regs lo hi) = true
    ∧ (∀ b ∈ chunks regs lo hi, sumLens b ≤ CHUNK_SIZE)
    ∧ (List.Pairwise (fun a b => a.addr.stop ≤ b.addr.start) regs →
        spanOrdered 0 (chunks regs lo hi).flatten = true) := by
  refine ⟨chunksList_tiles (totalLen (clipRegions regs lo hi)) _ (Nat.le_refl _), ?_, ?_⟩
  · exact chunksList_sum_le (totalLen (clipRegions regs lo hi)) _ (Nat.le_refl _)
  · intro hpw
    exact chunks_spanOrdered regs lo hi hpw

/-- Witness for C2's sortedness clause at a concrete input: two disjoint
ascending regions clipped to a range that splits both. -/
theorem C2_chunks_partition_witness :
    (List.Pairwise (fun a b => a.addr.stop ≤ b.addr.start)
      [Region.mk (MRange.mk 0 5) (Permissions.mk true true false false) none,
       Region.mk (MRange.mk 8 12) (Permissions.mk true true false false) none])
    ∧ spanOrdered 0
        (chunks
          [Region.mk (MRange.mk 0 5) (Permissions.mk true true false false) none,
           Region.mk (MRange.mk 8 12) (Permissions.mk true true false false) none]
          2 10).flatten = true :=
  ⟨by decide,
    (C2_chunks_partition
      [Region.mk (MRange.mk 0 5) (Permissions.mk true true false false) none,
       Region.mk (MRange.mk 8 12) (Permissions.mk true true false false) none]
      2 10).2.2 (by decide)⟩

/-! Exact-fit behaviour of the planner, used to exhibit concrete batches. -/

theorem mkBatch_fits : ∀ (regs : List MRange) (rem : Nat),
    (∀ r ∈ regs, 0 < r.stop - r.start) → totalLen regs ≤ rem →
    mkBatch regs rem = (regs.map (fun r => IoVec.mk r.start (r.stop - r.start)), []) := by
  intro regs
  induction regs with
  | nil => intro rem _ _; rfl
  | cons r rest ih =>
    intro rem hpos htot
    have hr := hpos r (List.mem_cons_self r rest)
    have htot' : r.stop - r.start + totalLen rest ≤ rem := by
      simp only [totalLen, List.map_cons, List.sum_cons] at htot ⊢
      omega
    rw [mkBatch]
    dsimp only
    rw [if_neg (by omega), if_pos (by omega)]
    by_cases h2 : rem - (r.stop - r.start) = 0
    · have hrest : rest = [] := by
        cases rest with
        | nil => rfl
        | cons q qs =>
          exfalso
          have hq := hpos q (List.mem_cons_of_mem r (List.mem_cons_self q qs))
          simp only [totalLen, List.map_cons, List.sum_cons] at htot'
          omega
      rw [if_pos h2, hrest]
      rfl
    · rw [if_neg h2]
      rw [ih (rem - (r.stop - r.start))
        (fun q hq => hpos q (List.mem_cons_of_mem r hq)) (by omega)]
      rfl

theorem chunksList_nil : chunksList [] = [] := by
  rw [chunksList]
  simp [mkBatch]

theorem chunksList_single (regs : List MRange) (hne : regs ≠ [])
    (hpos : ∀ r ∈ regs, 0 < r.stop - r.start) (htot : totalLen regs ≤ CHUNK_SIZE) :
    chunksList regs = [regs.map (fun r => IoVec.mk r.start (r.stop - r.start))] := by
  rw [chunksList, mkBatch_fits regs CHUNK_SIZE hpos htot]
  dsimp only
  rw [dif_neg (by simpa using hne)]
  rw [chunksList_nil]

theorem clipRegions_id (regs : List Region) (lo hi : Nat)
    (h : ∀ r ∈ regs, lo ≤ r.addr.start ∧ r.addr.stop ≤ hi ∧ r.addr.start < r.addr.stop) :
    clipRegions regs lo hi = regs.map Region.addr := by
  induction regs with
  | nil => rfl
  | cons r rest ih =>
    obtain ⟨h1, h2, h3⟩ := h r (List.mem_cons_self r rest)
    have hmax : Nat.max r.addr.start lo = r.addr.start := Nat.max_eq_left h1
    have hmin : Nat.min r.addr.stop hi = r.addr.stop := Nat.min_eq_left h2
    simp only [clipRegions, List.map_cons, List.filter_cons, hmax, hmin]
    rw [if_pos (by simpa using h3)]
    have := ih (fun q hq => h q (List.mem_cons_of_mem r hq))
    simp only [clipRegions] at this
    rw [this]

/-- The unit-byte region family used to exceed the vector-count limit. -/
def unitRegions (m : Nat) : List Region :=
  (List.range m).map
    (fun i => Region.mk (MRange.mk i (i + 1)) (Permissions.mk true true false false) none)

theorem totalLen_unit (m : Nat) :
    totalLen ((List.range m).map (fun i => MRange.mk i (i + 1))) = m := by
  induction m with
  | zero => rfl
  | succ m ih =>
    rw [List.range_succ, List.map_append, totalLen, List.map_append, List.sum_append]
    have : totalLen ((List.range m).map (fun i => MRange.mk i (i + 1))) = m := ih
    rw [totalLen] at this
    rw [this]
    simp

theorem chunks_unitRegions (m : Nat) (hm : 0 < m) (hsize : m ≤ CHUNK_SIZE)
    (hhi : m ≤ 2 ^ 40) :
    chunks (unitRegions m) 0 (2 ^ 40)
      = [((List.range m).map (fun i => MRange.mk i (i + 1))).map
          (fun r => IoVec.mk r.start (r.stop - r.start))] := by
  rw [chunks]
  have hclip : clipRegions (unitRegions m) 0 (2 ^ 40)
      = (List.range m).map (fun i => MRange.mk i (i + 1)) := by
    rw [clipRegions_id]
    · rw [unitRegions, List.map_map]
      rfl
    · intro r hr
      rw [unitRegions] at hr
      obtain ⟨i, hi, rfl⟩ := List.mem_map.mp hr
      rw [List.mem_range] at hi
      dsimp only
      refine ⟨Nat.zero_le _, by omega, by omega⟩
  rw [hclip]
  apply chunksList_single
  · cases m with
    | zero => omega
    | succ m => simp [List.range_succ]
  · intro r hr
    obtain ⟨i, hi, rfl⟩ := List.mem_map.mp hr
    dsimp only
    omega
  · rw [totalLen_unit]
    exact hsize

/-- Counterexample for C4: a catalog of 1025 one-byte regions produces a
single batch of 1025 requests, which is within the byte budget but exceeds
the OS vector-count limit IOV_MAX = 1024 — `Maps::chunks` imposes no
request-count bound at all. -/
theorem C4_counterexample :
    ∃ b ∈ chunks (unitRegions 1025) 0 (2 ^ 40), IOV_MAX < b.length := by
  rw [chunks_unitRegions 1025 (by norm_num) (by norm_num [CHUNK_SIZE]) (by norm_num)]
  refine ⟨_, List.mem_cons_self _ _, ?_⟩
  simp [IOV_MAX]

theorem length_le_sumLens (b : List IoVec) (h : ∀ iv ∈ b, 1 ≤ iv.len) :
    b.length ≤ sumLens b := by
  induction b with
  | nil => simp [sumLens]
  | cons x xs ih =>
    have hx := h x (List.mem_cons_self x xs)
    have := ih (fun iv hiv => h iv (List.mem_cons_of_mem x hiv))
    simp only [List.length_cons, sumLens, List.map_cons, List.sum_cons] at *
    omega

/-- C4 amended: a batch's request count is bounded only by the byte budget
(every request is at least one byte and the batch byte sum never exceeds
CHUNK_SIZE); no IOV_MAX vector-count bound is enforced by construction. -/
theorem C4_amended_count_bound (regs : List Region) (lo hi : Nat) :
    ∀ b ∈ chunks regs lo hi, b.length ≤ CHUNK_SIZE ∧ sumLens b ≤ CHUNK_SIZE := by
  intro b hb
  have hsum := chunksList_sum_le (totalLen (clipRegions regs lo hi)) _ (Nat.le_refl _) b hb
  have hpos := chunksList_iv_pos (totalLen (clipRegions regs lo hi)) _ (Nat.le_refl _) b hb
  have := length_le_sumLens b hpos
  exact ⟨by omega, hsum⟩

/-- Witness for the amended C4 at a concrete input. -/
theorem C4_amended_count_bound_witness :
    ∃ b ∈ chunks (unitRegions 2) 0 (2 ^ 40), b.length ≤ CHUNK_SIZE ∧ sumLens b ≤ CHUNK_SIZE := by
  have hc := chunks_unitRegions 2 (by norm_num) (by norm_num [CHUNK_SIZE]) (by norm_num)
  refine ⟨((List.range 2).map (fun i => MRange.mk i (i + 1))).map
      (fun r => IoVec.mk r.start (r.stop - r.start)), ?_, ?_⟩
  · rw [hc]
    exact List.mem_cons_self _ _
  · exact C4_amended_count_bound (unitRegions 2) 0 (2 ^ 40) _
      (by rw [hc]; exact List.mem_cons_self _ _)

/-! Scan pipeline (`src/commands/scan.rs`, `rescan.rs`, `utils.rs`). -/

/-- One successfully read chunk scanned for matches: the
`for (offset, chunk) in mem.chunks_exact(value.bytes()).enumerate()` loop
shared by the scan, rescan and `scan_batch` handlers.  The `Value` decode
plus constraint conjunction (`constraints.iter().all(|x| x.check(v))`) is
abstracted into the predicate `check` on each aligned `w`-byte window,
since the handlers pass the value and constraints in opaquely. -/
def scanChunk (bytes : List Nat) (base : Nat) (w : Nat) (check : List Nat → Bool) : List Nat :=
  (List.range (bytes.length / w)).filterMap
    (fun off => if check ((bytes.drop (off * w)).take w) then some (base + off * w) else none)

/-- The per-request validity oracle a batch presents to `read_vecs`:
request `i` of the batch is readable iff its iovec's memory is readable. -/
def ivOracle (validIv : IoVec → Bool) (batch : List IoVec) : Nat → Bool :=
  fun i => validIv (batch.getD i (IoVec.mk 0 0))

/-- `batch.iter().zip(memory).filter(|(_, mem)| mem.is_some()).map(unwrap)`:
the successfully read chunks of one batch, paired with their bytes. -/
def okChunks (batch : List IoVec) (valid : Nat → Bool) (mem : Nat → Nat) :
    List (IoVec × List Nat) :=
  (batch.zip (read_vecs batch valid mem)).filterMap
    (fun p => p.2.map (fun bytes => (p.1, bytes)))

/-- The sequential per-batch scan of the `scan`/`rescan` handlers: read the
batch, keep the successful chunks, and collect matches chunk by chunk in
order. -/
def scanBatchSeq (batch : List IoVec) (valid : Nat → Bool) (mem : Nat → Nat)
    (w : Nat) (check : List Nat → Bool) : List Nat :=
  ((okChunks batch valid mem).map (fun p => scanChunk p.2 p.1.base w check)).flatten

/-- `Maps::rw_regions`: retain the read-writeable regions. -/
def rw_regions (regs : List Region) : List Region :=
  regs.filter (fun r => r.perms.read && r.perms.write)

/-- The `u64::MAX` sentinel substituted for an `end` argument of 0. -/
def U64MAX : Nat := 2 ^ 64 - 1

/-- Batch planning of the full-scan handler (`src/commands/scan.rs` lines
29-34): read-write regions, chunked over the requested range with an end
bound of 0 widened to `u64::MAX`. -/
def scanBatches (regs : List Region) (s e : Nat) : List (List IoVec) :=
  chunks (rw_regions regs) s (if e = 0 then U64MAX else e)

/-- The full sequential match collection of the scan handler
(`src/commands/scan.rs` lines 37-62). -/
def scanMatches (regs : List Region) (s e : Nat) (validIv : IoVec → Bool)
    (mem : Nat → Nat) (w : Nat) (check : List Nat → Bool) : List Nat :=
  ((scanBatches regs s e).map
    (fun batch => scanBatchSeq batch (ivOracle validIv batch) mem w check)).flatten

/-- `scan_batch` of `src/commands/utils.rs` (lines 94-140): the rayon
`par_iter().for_each` body appends each worker's local result list to the
shared vector when that worker finishes; `order` is the workers' completion
order (rayon gives no ordering guarantee), as a list of indices into the
successful-chunk list. -/
def scan_batch (batch : List IoVec) (validIv : IoVec → Bool) (mem : Nat → Nat)
    (w : Nat) (check : List Nat → Bool) (order : List Nat) : List Nat :=
  ((order.filterMap (fun k => (okChunks batch (ivOracle validIv batch) mem).get? k)).map
    (fun p => scanChunk p.2 p.1.base w check)).flatten

/-! Helper lemmas about the scan pipeline. -/

theorem read_vecs_all_valid (reqs : List IoVec) (valid : Nat → Bool) (mem : Nat → Nat)
    (hv : ∀ i, valid i = true) (hpl : ∀ r ∈ reqs, 0 < r.len) :
    read_vecs reqs valid mem = reqs.map (fun r => some (bytesOf mem r)) := by
  obtain ⟨hlen, hslot⟩ := read_vecs_char reqs valid mem hpl
  apply List.ext_get (by simp [hlen])
  intro i h1 h2
  have hi : i < reqs.length := by omega
  have := hslot i hi
  rw [List.get_eq_getElem] at this ⊢
  rw [this]
  rw [hv i, if_pos rfl]
  simp

theorem okChunks_all_valid (batch : List IoVec) (valid : Nat → Bool) (mem : Nat → Nat)
    (hv : ∀ i, valid i = true) (hpl : ∀ r ∈ batch, 0 < r.len) :
    okChunks batch valid mem = batch.map (fun iv => (iv, bytesOf mem iv)) := by
  rw [okChunks, read_vecs_all_valid batch valid mem hv hpl]
  clear hv hpl
  induction batch with
  | nil => rfl
  | cons x xs ih =>
    simp only [List.map_cons, List.zip_cons_cons, List.filterMap_cons]
    rw [ih]
    rfl

theorem okChunks_fst_sublist : ∀ (xs : List IoVec) (ys : List (Option (List Nat))),
    List.Sublist
      (((xs.zip ys).filterMap (fun p => p.2.map (fun bytes => (p.1, bytes)))).map Prod.fst)
      xs := by
  intro xs
  induction xs with
  | nil => intro ys; simp
  | cons x xs ih =>
    intro ys
    cases ys with
    | nil => simp
    | cons y ys =>
      rw [List.zip_cons_cons]
      cases y with
      | none =>
        rw [List.filterMap_cons_none]
        · exact List.Sublist.cons x (ih ys)
        · rfl
      | some b =>
        rw [List.filterMap_cons_some (l := xs.zip ys) (b := (x, b))]
        · rw [List.map_cons]
          exact List.Sublist.cons₂ x (ih ys)
        · rfl

theorem okChunks_snd (batch : List IoVec) (valid : Nat → Bool) (mem : Nat → Nat) :
    ∀ p ∈ okChunks batch valid mem, p.2 = bytesOf mem p.1 := by
  intro p hp
  obtain ⟨a, ha, hfa⟩ := List.mem_filterMap.mp hp
  obtain ⟨i, hi⟩ := List.mem_iff_get?.mp ha
  obtain ⟨h1, h2⟩ := (List.get?_zip_eq_some _ _ _ _).mp hi
  cases ha2 : a.2 with
  | none => rw [ha2] at hfa; cases hfa
  | some bytes =>
    rw [ha2] at hfa
    simp only [Option.map_some'] at hfa
    have hlt : i < batch.length := by
      by_contra hge
      have hnone : batch.get? i = none := List.get?_eq_none.mpr (by omega)
      rw [hnone] at h1
      cases h1
    have hrv : (read_vecs batch valid mem).get? i
        = some (if i ∈ (readLoop batch valid 0).1
            then (batch.get? i).map (bytesOf mem) else none) := by
      rw [read_vecs]
      rw [List.get?_map, List.get?_range hlt]
      rfl
    rw [h2, ha2] at hrv
    by_cases hmem : i ∈ (readLoop batch valid 0).1
    · rw [if_pos hmem, h1] at hrv
      simp only [Option.map_some', Option.some_inj] at hrv
      cases hfa
      dsimp only
      exact hrv
    · rw [if_neg hmem] at hrv
      cases hrv

theorem scanChunk_bounds (bytes : List Nat) (base w : Nat) (check : List Nat → Bool)
    (hw : 0 < w) :
    ∀ a ∈ scanChunk bytes base w check, base ≤ a ∧ a + w ≤ base + bytes.length := by
  intro a ha
  obtain ⟨off, hoff, hsome⟩ := List.mem_filterMap.mp ha
  rw [List.mem_range] at hoff
  by_cases hc : check ((bytes.drop (off * w)).take w)
  · rw [if_pos hc] at hsome
    cases hsome
    have h1 : off + 1 ≤ bytes.length / w := hoff
    have h2 : (off + 1) * w ≤ bytes.length := (Nat.le_div_iff_mul_le hw).mp h1
    have h3 : (off + 1) * w = off * w + w := by ring
    constructor
    · omega
    · omega
  · rw [if_neg hc] at hsome
    cases hsome

theorem pairwise_filterMap_of {α β : Type} (f : α → Option β)
    (R : α → α → Prop) (S : β → β → Prop) :
    ∀ (l : List α), List.Pairwise R l →
    (∀ a b, R a b → ∀ x, f a = some x → ∀ y, f b = some y → S x y) →
    List.Pairwise S (l.filterMap f) := by
  intro l
  induction l with
  | nil => intro _ _; simp
  | cons a l ih =>
    intro hp hH
    obtain ⟨hhead, htail⟩ := List.pairwise_cons.mp hp
    cases hfa : f a with
    | none =>
      rw [List.filterMap_cons_none hfa]
      exact ih htail hH
    | some x =>
      rw [List.filterMap_cons_some hfa]
      refine List.Pairwise.cons ?_ (ih htail hH)
      intro y hy
      obtain ⟨b, hb, hfb⟩ := List.mem_filterMap.mp hy
      exact hH a b (hhead b hb) x hfa y hfb

theorem scanChunk_pairwise (bytes : List Nat) (base w : Nat) (check : List Nat → Bool)
    (hw : 0 < w) : List.Pairwise (· < ·) (scanChunk bytes base w check) := by
  refine pairwise_filterMap_of _ (· < ·) (· < ·) _ (List.pairwise_lt_range _) ?_
  intro a b hab x hx y hy
  by_cases hca : check ((bytes.drop (a * w)).take w)
  · rw [if_pos hca] at hx
    cases hx
    by_cases hcb : check ((bytes.drop (b * w)).take w)
    · rw [if_pos hcb] at hy
      cases hy
      have : a * w < b * w := (Nat.mul_lt_mul_right hw).mpr hab
      omega
    · rw [if_neg hcb] at hy; cases hy
  · rw [if_neg hca] at hx; cases hx

/-- Matches produced chunk by chunk over a span-ordered run of chunks are
strictly ascending, and all sit at or beyond the run's lower bound. -/
theorem joinScan_ordered (w : Nat) (check : List Nat → Bool) (hw : 0 < w) :
    ∀ (ps : List (IoVec × List Nat)) (lo : Nat),
    spanOrdered lo (ps.map Prod.fst) = true →
    (∀ p ∈ ps, p.2.length = p.1.len) →
    List.Pairwise (· < ·) ((ps.map (fun p => scanChunk p.2 p.1.base w check)).flatten)
    ∧ ∀ a ∈ ((ps.map (fun p => scanChunk p.2 p.1.base w check)).flatten), lo ≤ a := by
  intro ps
  induction ps with
  | nil => intro lo _ _; constructor <;> simp
  | cons p ps2 ih =>
    intro lo hspan hdata
    rw [List.map_cons, spanOrdered, Bool.and_eq_true, decide_eq_true_eq] at hspan
    obtain ⟨hlo, hspan2⟩ := hspan
    have hplen : p.2.length = p.1.len := hdata p (List.mem_cons_self _ _)
    have ihr := ih (p.1.base + p.1.len) hspan2
      (fun q hq => hdata q (List.mem_cons_of_mem p hq))
    rw [List.map_cons, List.flatten_cons]
    have hbnd := scanChunk_bounds p.2 p.1.base w check hw
    constructor
    · rw [List.pairwise_append]
      refine ⟨scanChunk_pairwise p.2 p.1.base w check hw, ihr.1, ?_⟩
      intro a ha b hb
      have ha2 := hbnd a ha
      have hb2 := ihr.2 b hb
      rw [hplen] at ha2
      omega
    · intro a ha
      rcases List.mem_append.mp ha with ha | ha
      · have := hbnd a ha
        omega
      · have := ihr.2 a ha
        omega

theorem spanOrdered_mono : ∀ (ivs : List IoVec) (lo lo' : Nat), lo' ≤ lo →
    spanOrdered lo ivs = true → spanOrdered lo' ivs = true := by
  intro ivs lo lo' h hs
  cases ivs with
  | nil => rfl
  | cons iv rest =>
    rw [spanOrdered, Bool.and_eq_true, decide_eq_true_eq] at hs ⊢
    exact ⟨by omega, hs.2⟩

theorem spanOrdered_sublist {xs ys : List IoVec} (h : List.Sublist xs ys) :
    ∀ lo, spanOrdered lo ys = true → spanOrdered lo xs = true := by
  induction h with
  | slnil => intro lo _; rfl
  | cons a _ ih =>
    intro lo hs
    rw [spanOrdered, Bool.and_eq_true, decide_eq_true_eq] at hs
    exact ih lo (spanOrdered_mono _ _ _ (by omega) hs.2)
  | cons₂ a _ ih =>
    intro lo hs
    rw [spanOrdered, Bool.and_eq_true, decide_eq_true_eq] at hs ⊢
    exact ⟨hs.1, ih _ hs.2⟩

theorem okJoin_fst_sublist (validIv : IoVec → Bool) (mem : Nat → Nat) :
    ∀ (L : List (List IoVec)),
    List.Sublist
      (((L.map (fun b => okChunks b (ivOracle validIv b) mem)).flatten).map Prod.fst)
      L.flatten := by
  intro L
  induction L with
  | nil => simp
  | cons b L ih =>
    rw [List.map_cons, List.flatten_cons, List.flatten_cons, List.map_append]
    exact List.Sublist.append (okChunks_fst_sublist b _) ih

theorem scanMatches_swap (validIv : IoVec → Bool) (mem : Nat → Nat) (w : Nat)
    (check : List Nat → Bool) : ∀ (L : List (List IoVec)),
    ((L.map (fun b => scanBatchSeq b (ivOracle validIv b) mem w check)).flatten)
      = (((L.map (fun b => okChunks b (ivOracle validIv b) mem)).flatten).map
          (fun p => scanChunk p.2 p.1.base w check)).flatten := by
  intro L
  induction L with
  | nil => rfl
  | cons b L ih =>
    rw [List.map_cons, List.flatten_cons, List.map_cons, List.flatten_cons, List.map_append,
      List.flatten_append, ih]
    rfl

theorem range_filterMap_get {α : Type} : ∀ (xs : List α),
    (List.range xs.length).filterMap (fun k => xs.get? k) = xs := by
  intro xs
  induction xs with
  | nil => rfl
  | cons x t ih =>
    rw [List.length_cons, List.range_succ_eq_map,
      List.filterMap_cons_some (by rfl), List.filterMap_map]
    show x :: List.filterMap (fun k => t.get? k) (List.range t.length) = x :: t
    rw [ih]

/-- Counterexample for C5: the parallel `scan_batch` path commits worker
results in completion order; with two one-byte chunks at addresses 10 and
20 and the second worker finishing first, the committed list is [20, 10] —
not ascending. -/
theorem C5_counterexample :
    List.Perm [1, 0]
      (List.range (okChunks [IoVec.mk 10 1, IoVec.mk 20 1]
        (ivOracle (fun _ => true) [IoVec.mk 10 1, IoVec.mk 20 1]) (fun _ => 0)).length)
    ∧ scan_batch [IoVec.mk 10 1, IoVec.mk 20 1] (fun _ => true) (fun _ => 0) 1
        (fun _ => true) [1, 0] = [20, 10]
    ∧ ¬ List.Pairwise (· < ·) ([20, 10] : List Nat) := by
  have hok := okChunks_all_valid [IoVec.mk 10 1, IoVec.mk 20 1]
    (ivOracle (fun _ => true) [IoVec.mk 10 1, IoVec.mk 20 1]) (fun _ => 0)
    (fun i => rfl) (by decide)
  refine ⟨?_, ?_, by decide⟩
  · rw [hok]
    decide
  · rw [scan_batch, hok]
    decide

/-- C5 amended: the sequential scan path commits a strictly ascending,
deduplicated address list (given an ascending, non-overlapping catalog);
the parallel `scan_batch` path commits the same addresses only up to
permutation — its order depends on worker completion order. -/
theorem C5_amended_ordering (regs : List Region) (s e : Nat) (validIv : IoVec → Bool)
    (mem : Nat → Nat) (w : Nat) (check : List Nat → Bool) (hw : 0 < w)
    (hpw : List.Pairwise (fun a b => a.addr.stop ≤ b.addr.start) regs) :
    List.Pairwise (· < ·) (scanMatches regs s e validIv mem w check)
    ∧ ∀ (batch : List IoVec) (order : List Nat),
      List.Perm order (List.range (okChunks batch (ivOracle validIv batch) mem).length) →
      List.Perm (scan_batch batch validIv mem w check order)
        (scanBatchSeq batch (ivOracle validIv batch) mem w check) := by
  constructor
  · rw [scanMatches, scanMatches_swap]
    have hpw2 : List.Pairwise (fun a b => a.addr.stop ≤ b.addr.start) (rw_regions regs) :=
      List.Pairwise.sublist (List.filter_sublist _) hpw
    have hspan0 : spanOrdered 0 (scanBatches regs s e).flatten = true :=
      chunks_spanOrdered (rw_regions regs) s (if e = 0 then U64MAX else e) hpw2
    have hsub := okJoin_fst_sublist validIv mem (scanBatches regs s e)
    refine (joinScan_ordered w check hw _ 0
      (spanOrdered_sublist hsub 0 hspan0) ?_).1
    intro p hp
    obtain ⟨ok, hok, hpok⟩ := List.mem_join.mp hp
    obtain ⟨b, _, hb⟩ := List.mem_map.mp hok
    rw [← hb] at hpok
    rw [okChunks_snd b _ mem p hpok, bytesOf_length]
  · intro batch order hperm
    rw [scan_batch, scanBatchSeq]
    refine List.Perm.flatten (List.Perm.map _ ?_)
    have h2 := hperm.filterMap
      (fun k => (okChunks batch (ivOracle validIv batch) mem).get? k)
    rw [range_filterMap_get] at h2
    exact h2

/-! Region classification (`Region::is_interesting`) and the full-scan
region source (claim C8). -/

/-- `str::starts_with` over the character-list model of paths. -/
def startsWithL (s pre : List Char) : Bool := decide (s.take pre.length = pre)

/-- `str::ends_with` over the character-list model of paths. -/
def endsWithL (s suf : List Char) : Bool := decide (s.drop (s.length - suf.length) = suf)

/-- `str::trim_end` over the character-list model of paths. -/
def trimRightL (s : List Char) : List Char := (s.reverse.dropWhile Char.isWhitespace).reverse

/-- `Region::is_interesting` (`src/proc_maps.rs` lines 90-122): readable,
and not a kernel helper pseudo-mapping, a `/dev`, `/sys` or `/proc` path,
an `anon_inode:`/`memfd:` mapping, or a deleted file. -/
def is_interesting (r : Region) : Bool :=
  if r.perms.read = false then false
  else match r.path with
    | none => true
    | some name =>
      if startsWithL name "[vvar".data
          || name == "[vdso]".data || name == "[vsyscall]".data then false
      else if startsWithL name "/dev".data || startsWithL name "/sys".data
          || startsWithL name "/proc".data then false
      else if startsWithL name "anon_inode:".data || startsWithL name "memfd:".data then false
      else if endsWithL (trimRightL name) "(deleted)".data then false
      else true

/-- `Maps::interesting_regions`: the read-write regions that also pass
`is_interesting`. -/
def interesting_regions (regs : List Region) : List Region :=
  (rw_regions regs).filter is_interesting

/-- Counterexample for C8: a read-write `/dev`-backed region is not
"interesting", yet the full typed scan (which selects `Maps::rw_regions`,
not `Maps::interesting_regions`) plans a batch covering it; the claim's
region source would plan nothing. -/
theorem C8_counterexample :
    rw_regions
        [Region.mk (MRange.mk 0 4) (Permissions.mk true true false false) (some "/dev/x".data)]
      = [Region.mk (MRange.mk 0 4) (Permissions.mk true true false false) (some "/dev/x".data)]
    ∧ interesting_regions
        [Region.mk (MRange.mk 0 4) (Permissions.mk true true false false) (some "/dev/x".data)]
      = []
    ∧ scanBatches
        [Region.mk (MRange.mk 0 4) (Permissions.mk true true false false) (some "/dev/x".data)]
        0 0
      = [[IoVec.mk 0 4]]
    ∧ chunks (interesting_regions
        [Region.mk (MRange.mk 0 4) (Permissions.mk true true false false) (some "/dev/x".data)])
        0 U64MAX
      = [] := by
  have hrw : rw_regions
      [Region.mk (MRange.mk 0 4) (Permissions.mk true true false false) (some "/dev/x".data)]
      = [Region.mk (MRange.mk 0 4) (Permissions.mk true true false false) (some "/dev/x".data)] := by
    decide
  have hint : interesting_regions
      [Region.mk (MRange.mk 0 4) (Permissions.mk true true false false) (some "/dev/x".data)]
      = [] := by
    decide
  refine ⟨hrw, hint, ?_, ?_⟩
  · rw [scanBatches, hrw, if_pos rfl]
    rw [chunks, clipRegions_id _ _ _ (by intro r hr; simp at hr; rw [hr]; refine ⟨Nat.zero_le _, by norm_num [U64MAX], by norm_num⟩)]
    rw [chunksList_single _ (by simp) (by intro r hr; simp at hr; rw [hr]; norm_num) (by norm_num [totalLen, CHUNK_SIZE])]
    rfl
  · rw [hint, chunks]
    rw [show clipRegions [] 0 U64MAX = [] from rfl]
    exact chunksList_nil

/-- C8 amended: the regions the full typed scan sweeps are exactly the
read-write regions — the "interesting" classification is not applied —
clipped to the requested range, with an end bound of 0 treated as
`u64::MAX` (unbounded). -/
theorem C8_amended_scan_regions (regs : List Region) (s e : Nat) :
    tiles (scanBatches regs s e).flatten
      (clipRegions (rw_regions regs) s (if e = 0 then U64MAX else e)) = true :=
  chunksList_tiles
    (totalLen (clipRegions (rw_regions regs) s (if e = 0 then U64MAX else e)))
    _ (Nat.le_refl _)

/-- Witness for the amended C5 at a concrete input: one read-write region,
4-byte values, everything readable. -/
theorem C5_amended_ordering_witness :
    ((0 : Nat) < 4
      ∧ List.Pairwise (fun a b => a.addr.stop ≤ b.addr.start)
          [Region.mk (MRange.mk 0 8) (Permissions.mk true true false false) none])
    ∧ (List.Pairwise (· < ·)
        (scanMatches [Region.mk (MRange.mk 0 8) (Permissions.mk true true false false) none]
          0 0 (fun _ => true) (fun a => a) 4 (fun _ => true))
      ∧ ∀ (batch : List IoVec) (order : List Nat),
        List.Perm order
          (List.range (okChunks batch (ivOracle (fun _ => true) batch) (fun a => a)).length) →
        List.Perm (scan_batch batch (fun _ => true) (fun a => a) 4 (fun _ => true) order)
          (scanBatchSeq batch (ivOracle (fun _ => true) batch) (fun a => a) 4 (fun _ => true))) :=
  ⟨⟨by decide, by decide⟩,
    C5_amended_ordering [Region.mk (MRange.mk 0 8) (Permissions.mk true true false false) none]
      0 0 (fun _ => true) (fun a => a) 4 (fun _ => true) (by decide) (by decide)⟩

/-! Rescan (`src/commands/rescan.rs`, claim C9). -/

/-- Rust's `slice::chunks(k)`: consecutive sub-slices of at most `k`
elements (the last may be shorter); `k = 0` panics in Rust and is mapped
to an empty result (unreachable here: `k = CHUNK_SIZE / value.bytes()`). -/
def sliceChunks {α : Type} (k : Nat) (l : List α) : List (List α) :=
  if _h1 : l.isEmpty then []
  else if _h2 : k = 0 then []
  else l.take k :: sliceChunks k (l.drop k)
termination_by l.length
decreasing_by
  have hlen : l ≠ [] := by simpa [List.isEmpty_iff] using _h1
  have : 0 < l.length := List.length_pos.mpr hlen
  simp only [List.length_drop]
  omega

theorem sliceChunks_mem {α : Type} (k : Nat) : ∀ (m : Nat) (l : List α),
    l.length ≤ m → ∀ b ∈ sliceChunks k l, ∀ x ∈ b, x ∈ l := by
  intro m
  induction m with
  | zero =>
    intro l hm b hb x hx
    have : l = [] := List.length_eq_zero.mp (by omega)
    subst this
    rw [sliceChunks] at hb
    simp at hb
  | succ m ih =>
    intro l hm b hb x hx
    rw [sliceChunks] at hb
    by_cases h1 : l.isEmpty
    · rw [dif_pos h1] at hb; cases hb
    · rw [dif_neg h1] at hb
      by_cases h2 : k = 0
      · rw [dif_pos h2] at hb; cases hb
      · rw [dif_neg h2] at hb
        rcases List.mem_cons.mp hb with hb | hb
        · rw [hb] at hx
          exact List.mem_of_mem_take hx
        · have hlen : l ≠ [] := by simpa [List.isEmpty_iff] using h1
          have hpos : 0 < l.length := List.length_pos.mpr hlen
          have := ih (l.drop k) (by simp only [List.length_drop]; omega) b hb x hx
          exact List.mem_of_mem_drop this

/-- The iovecs of one rescan: one `value.bytes()`-sized request per address
of the previous result set (`src/commands/rescan.rs` lines 20-23). -/
def rescanIovecs (results : List Nat) (w : Nat) : List IoVec :=
  results.map (fun a => IoVec.mk a w)

/-- The rescan handler's match collection (`src/commands/rescan.rs` lines
26-51): batch the per-address iovecs, read each batch, scan each
successfully read chunk. -/
def rescanMatches (results : List Nat) (w : Nat) (validIv : IoVec → Bool)
    (mem : Nat → Nat) (check : List Nat → Bool) : List Nat :=
  ((sliceChunks (CHUNK_SIZE / w) (rescanIovecs results w)).map
    (fun batch => scanBatchSeq batch (ivOracle validIv batch) mem w check)).flatten

theorem okChunks_fst_mem (batch : List IoVec) (valid : Nat → Bool) (mem : Nat → Nat) :
    ∀ p ∈ okChunks batch valid mem, p.1 ∈ batch := by
  intro p hp
  obtain ⟨a0, ha0, hf⟩ := List.mem_filterMap.mp hp
  cases ha02 : a0.2 with
  | none => rw [ha02] at hf; cases hf
  | some bytes =>
    rw [ha02] at hf
    simp only [Option.map_some'] at hf
    cases hf
    exact (List.mem_zip ha0).1

theorem scanChunk_elim (bytes : List Nat) (base w : Nat) (check : List Nat → Bool) :
    ∀ a ∈ scanChunk bytes base w check, ∃ off, off < bytes.length / w ∧ a = base + off * w := by
  intro a ha
  obtain ⟨off, hoff, hsome⟩ := List.mem_filterMap.mp ha
  rw [List.mem_range] at hoff
  by_cases hc : check ((bytes.drop (off * w)).take w)
  · rw [if_pos hc] at hsome
    cases hsome
    exact ⟨off, hoff, rfl⟩
  · rw [if_neg hc] at hsome
    cases hsome

/-- C9: every address a rescan commits was already in the result set it
re-examined — a rescan can only shrink the set, never introduce a new
address. -/
theorem C9_rescan_subset (results : List Nat) (w : Nat) (validIv : IoVec → Bool)
    (mem : Nat → Nat) (check : List Nat → Bool) (hw : 0 < w) :
    ∀ a ∈ rescanMatches results w validIv mem check, a ∈ results := by
  intro a ha
  rw [rescanMatches] at ha
  obtain ⟨ms, hms, hams⟩ := List.mem_flatten.mp ha
  obtain ⟨batch, hbatch, hms2⟩ := List.mem_map.mp hms
  rw [← hms2, scanBatchSeq] at hams
  obtain ⟨s, hs, has⟩ := List.mem_flatten.mp hams
  obtain ⟨p, hp, hs2⟩ := List.mem_map.mp hs
  rw [← hs2] at has
  have hsnd := okChunks_snd batch _ mem p hp
  have hfst := okChunks_fst_mem batch _ mem p hp
  have hivmem : p.1 ∈ rescanIovecs results w :=
    sliceChunks_mem (CHUNK_SIZE / w) (rescanIovecs results w).length
      (rescanIovecs results w) (Nat.le_refl _) batch hbatch p.1 hfst
  obtain ⟨addr, haddr, hiv⟩ := List.mem_map.mp hivmem
  obtain ⟨off, hoff, hval⟩ := scanChunk_elim p.2 p.1.base w check a has
  have hlen : p.2.length = p.1.len := by rw [hsnd, bytesOf_length]
  have hwlen : p.1.len = w := by rw [← hiv]
  rw [hlen, hwlen, Nat.div_self hw] at hoff
  have hoff0 : off = 0 := by omega
  rw [hoff0] at hval
  simp only [Nat.zero_mul, Nat.add_zero] at hval
  rw [hval, ← hiv]
  exact haddr

/-- Witness for C9 at a concrete input: rescanning the one-address result
set [5] with everything readable re-finds 5 and only 5. -/
theorem C9_rescan_subset_witness :
    (0 : Nat) < 1
    ∧ (5 : Nat) ∈ rescanMatches [5] 1 (fun _ => true) (fun a => a) (fun _ => true)
    ∧ (5 : Nat) ∈ ([5] : List Nat) := by
  have hsc : sliceChunks (CHUNK_SIZE / 1) (rescanIovecs [5] 1) = [[IoVec.mk 5 1]] := by
    rw [sliceChunks]
    rw [dif_neg (by decide), dif_neg (by decide)]
    rw [show (rescanIovecs [5] 1).drop (CHUNK_SIZE / 1) = [] from by decide]
    rw [show (rescanIovecs [5] 1).take (CHUNK_SIZE / 1) = [IoVec.mk 5 1] from by decide]
    rw [sliceChunks]
    rfl
  have hmem : (5 : Nat) ∈ rescanMatches [5] 1 (fun _ => true) (fun a => a) (fun _ => true) := by
    rw [rescanMatches, hsc, List.map_cons, List.map_nil, List.flatten_cons, List.flatten_nil,
      List.append_nil, scanBatchSeq,
      okChunks_all_valid [IoVec.mk 5 1] (ivOracle (fun _ => true) [IoVec.mk 5 1])
        (fun a => a) (fun i => rfl) (by decide)]
    decide
  exact ⟨by decide, hmem,
    C9_rescan_subset [5] 1 (fun _ => true) (fun a => a) (fun _ => true) (by decide) 5 hmem⟩

/-! Diff (`src/commands/diff.rs`, claim C10). -/

/-- The merge-compare loop of the diff handler (`src/commands/diff.rs`
lines 19-32): walk both ascending lists, keep elements of `last` (the
newer entry) smaller than the `base` cursor, skip equal elements, advance
`base` past smaller elements; once `base` is exhausted, the rest of `last`
is appended. -/
def mergeDiff : List Nat → List Nat → List Nat
  | [], _ => []
  | a :: ls, [] => a :: ls
  | a :: ls, b :: bs =>
    if a < b then a :: mergeDiff ls (b :: bs)
    else if a = b then mergeDiff ls bs
    else mergeDiff (a :: ls) bs
termination_by ls bs => ls.length + bs.length

/-- The diff handler (`src/commands/diff.rs` lines 10-37): a no-op unless
the history holds exactly two entries, in which case it merge-compares the
front (older) and back (newer) entries.  The output models the printed
address list. -/
def diffHandler (results : List (List Nat)) : List Nat :=
  if results.length ≠ 2 then []
  else mergeDiff (results.getLastD []) (results.headD [])

theorem mergeDiff_eq_filter : ∀ (m : Nat) (last base : List Nat),
    last.length + base.length ≤ m →
    List.Pairwise (· < ·) last → List.Pairwise (· < ·) base →
    mergeDiff last base = last.filter (fun x => decide (x ∉ base)) := by
  intro m
  induction m with
  | zero =>
    intro last base hm _ _
    have h1 : last = [] := List.length_eq_zero.mp (by omega)
    subst h1
    simp [mergeDiff]
  | succ m ih =>
    intro last base hm hl hb
    cases last with
    | nil => simp [mergeDiff]
    | cons a ls =>
      cases base with
      | nil =>
        rw [mergeDiff]
        simp
      | cons b bs =>
        obtain ⟨hahead, hatail⟩ := List.pairwise_cons.mp hl
        obtain ⟨hbhead, hbtail⟩ := List.pairwise_cons.mp hb
        rw [mergeDiff]
        simp only [List.length_cons] at hm
        by_cases hab : a < b
        · rw [if_pos hab]
          rw [ih ls (b :: bs) (by simp; omega) hatail hb]
          have hnotin : a ∉ b :: bs := by
            intro hmem
            rcases List.mem_cons.mp hmem with h | h
            · omega
            · have := hbhead a h
              omega
          rw [List.filter_cons]
          rw [if_pos (by simpa using hnotin)]
        · rw [if_neg hab]
          by_cases heq : a = b
          · rw [if_pos heq]
            rw [ih ls bs (by omega) hatail hbtail]
            rw [List.filter_cons]
            have hin : a ∈ b :: bs := by rw [heq]; exact List.mem_cons_self _ _
            rw [if_neg (by simp only [decide_eq_true_eq]; intro hcon; exact hcon hin)]
            apply List.filter_congr
            intro x hx
            have hax := hahead x hx
            simp only [decide_eq_decide]
            constructor
            · intro hnx hmem
              rcases List.mem_cons.mp hmem with h | h
              · omega
              · exact hnx h
            · intro hnx hmem
              exact hnx (List.mem_cons_of_mem b hmem)
          · rw [if_neg heq]
            rw [ih (a :: ls) bs (by simp; omega) hl hbtail]
            apply List.filter_congr
            intro x hx
            have hbx : b < x := by
              rcases List.mem_cons.mp hx with h | h
              · omega
              · have := hahead x h
                omega
            simp only [decide_eq_decide]
            constructor
            · intro hnx hmem
              rcases List.mem_cons.mp hmem with h | h
              · omega
              · exact hnx h
            · intro hnx hmem
              exact hnx (List.mem_cons_of_mem b hmem)

/-- Counterexample for C10: with three history entries — the two most
recent being [10,25,30,40] (older) and [99] (newer) — the handler's
`len() != 2` guard makes diff a no-op, although the claim demands the
additions of the newer entry ([99]). -/
theorem C10_counterexample :
    2 ≤ ([[10, 20, 30], [10, 25, 30, 40], [99]] : List (List Nat)).length
    ∧ diffHandler [[10, 20, 30], [10, 25, 30, 40], [99]] = []
    ∧ ([99] : List Nat).filter (fun x => decide (x ∉ ([10, 25, 30, 40] : List Nat))) = [99]
    ∧ ([] : List Nat) ≠ [99] := by
  refine ⟨by decide, ?_, by decide, by decide⟩
  rw [diffHandler, if_pos (by decide)]

/-- C10 amended: only when History holds exactly two entries does diff
merge-compare them — front (older) against back (newer) — returning
exactly the addresses of the newer entry absent from the older, in
ascending order; with any other entry count (fewer or more than two) it is
a no-op. -/
theorem C10_amended_diff :
    (∀ h : List (List Nat), h.length ≠ 2 → diffHandler h = [])
    ∧ ∀ base last : List Nat, List.Pairwise (· < ·) base → List.Pairwise (· < ·) last →
        diffHandler [base, last] = last.filter (fun x => decide (x ∉ base)) := by
  constructor
  · intro h hlen
    rw [diffHandler, if_pos hlen]
  · intro base last hbase hlast
    rw [diffHandler, if_neg (by simp)]
    simp only [List.getLastD, List.headD]
    exact mergeDiff_eq_filter (last.length + base.length) last base (Nat.le_refl _) hlast hbase

/-- Witness for the amended C10 at the spec's own example: older entry
[10,20,30], newer entry [10,25,30,40] — the diff is [25,40]. -/
theorem C10_amended_diff_witness :
    (List.Pairwise (· < ·) ([10, 20, 30] : List Nat)
      ∧ List.Pairwise (· < ·) ([10, 25, 30, 40] : List Nat))
    ∧ diffHandler [[10, 20, 30], [10, 25, 30, 40]]
        = ([10, 25, 30, 40] : List Nat).filter (fun x => decide (x ∉ ([10, 20, 30] : List Nat)))
    ∧ ([10, 25, 30, 40] : List Nat).filter (fun x => decide (x ∉ ([10, 20, 30] : List Nat)))
        = [25, 40] :=
  ⟨⟨by decide, by decide⟩,
    C10_amended_diff.2 [10, 20, 30] [10, 25, 30, 40] (by decide) (by decide),
    by decide⟩

/-! Pattern engine (`src/commands/pattern_scan.rs`, claims C6 and C7). -/

/-- An anchor of a pattern string: a maximal run of contiguous known
(non-wildcard) bytes, tagged with its offset into the pattern. -/
structure Anchor where
  offset : Nat
  bytes  : List Nat
deriving Repr, DecidableEq

/-- The `unique` counter of `Anchor::score`: how many distinct byte values
occur in the anchor. -/
def uniqueCount (bs : List Nat) : Nat :=
  (List.range 256).countP (fun b => decide (0 < bs.count b))

/-- The `counts.iter().max()` of the repetition penalty: the largest
per-byte-value occurrence count. -/
def maxByteCount (bs : List Nat) : Nat :=
  ((List.range 256).map (fun b => bs.count b)).foldr Nat.max 0

/-- The entropy estimation of `Anchor::score`: Shannon entropy of the
anchor's byte histogram.  The source computes in `f64`; the model uses the
exact real numbers the expressions denote. -/
noncomputable def anchorEntropy (bs : List Nat) : ℝ :=
  ∑ b ∈ Finset.range 256,
    (if 0 < bs.count b then
      -((bs.count b : ℝ) / (bs.length : ℝ)) * Real.logb 2 ((bs.count b : ℝ) / (bs.length : ℝ))
     else 0)

/-- `Anchor::score` (`src/commands/pattern_scan.rs` lines 96-140):
`1.5·len + 2·entropy + 3·diversity`, minus 5 if all bytes are identical
and minus 3 if one byte value accounts for more than 90% of occurrences.
The `f64` literals 1.5 and 0.9 are modelled by the exact rationals they
denote. -/
noncomputable def anchorScore (a : Anchor) : ℝ :=
  let len : ℝ := (a.bytes.length : ℝ)
  let diversity : ℝ := (uniqueCount a.bytes : ℝ) / len
  let all_same_penalty : ℝ := if uniqueCount a.bytes = 1 then 5 else 0
  let max_count : ℝ := (maxByteCount a.bytes : ℝ) / len
  let repetition_penalty : ℝ := if (9 : ℝ) / 10 < max_count then 3 else 0
  len * (3 / 2) + anchorEntropy a.bytes * 2 + diversity * 3
    - all_same_penalty - repetition_penalty

/-- `Pattern::sort_by_score`: `sort_unstable_by(|a, b|
a.score().partial_cmp(&b.score()).unwrap())` — an ASCENDING comparison
sort on the score.  Modelled with insertion sort; the source's unstable
sort agrees with it whenever scores are distinct, as in every input
considered here. -/
noncomputable def sort_by_score (l : List Anchor) : List Anchor :=
  @List.insertionSort Anchor (fun a b => anchorScore a ≤ anchorScore b)
    (Classical.decRel _) l

/-- Anchors of a parsed pattern, as sorted by `sort_by_score`. -/
structure Pattern where
  anchors : List Anchor

/-- `Pattern::get_best`: "Get a reference to the anchor with the highest
score" per its doc comment — implemented as `&self.anchors[0]`, the FIRST
anchor of the sorted vector.  The out-of-bounds panic on an empty vector
is unreachable (the parser rejects anchor-free patterns) and is mapped to
a default. -/
def Pattern.get_best (p : Pattern) : Anchor :=
  p.anchors.headD (Anchor.mk 0 [])

/-- Hexadecimal value of one character, as in `u8::from_str_radix`'s
per-digit handling. -/
def hexVal (c : Char) : Option Nat :=
  if '0' ≤ c ∧ c ≤ '9' then some (c.toNat - '0'.toNat)
  else if 'a' ≤ c ∧ c ≤ 'f' then some (c.toNat - 'a'.toNat + 10)
  else if 'A' ≤ c ∧ c ≤ 'F' then some (c.toNat - 'A'.toNat + 10)
  else none

/-- `u8::from_str_radix(part, 16)`: a non-empty token of hex digits whose
value fits in a byte (Rust's optional leading sign is not modelled; the
pattern grammar never uses it). -/
def parseHexByte (s : List Char) : Option Nat :=
  if s.isEmpty then none
  else
    (s.foldl (fun acc c => acc.bind (fun v => (hexVal c).map (fun d => 16 * v + d)))
      (some 0)).bind
      (fun v => if v < 256 then some v else none)

/-- The anchor-extraction loop of `Pattern::parse_scored_anchors`
(`src/commands/pattern_scan.rs` lines 160-197): walk the tokens, closing
the current anchor at each wildcard and recording each anchor's start
index; an unparsable token is the error. -/
def parseAnchorsGo : List (List Char) → Nat → List Nat → Nat → List Anchor →
    Except (List Char) (List Anchor)
  | [], _, cur, astart, acc =>
    .ok (acc ++ (if cur.isEmpty then [] else [Anchor.mk astart cur]))
  | part :: rest, i, cur, astart, acc =>
    if part = "??".data then
      parseAnchorsGo rest (i + 1) [] astart
        (acc ++ (if cur.isEmpty then [] else [Anchor.mk astart cur]))
    else match parseHexByte part with
      | some byte =>
        if cur.isEmpty then parseAnchorsGo rest (i + 1) [byte] i acc
        else parseAnchorsGo rest (i + 1) (cur ++ [byte]) astart acc
      | none => .error part

/-- `Pattern::parse_scored_anchors` (`src/commands/pattern_scan.rs` lines
153-211): extract the anchors, reject an all-wildcard pattern, and sort
by score. -/
noncomputable def parse_scored_anchors (parts : List (List Char)) :
    Except (List Char) Pattern :=
  match parseAnchorsGo parts 0 [] 0 [] with
  | .error p => .error p
  | .ok anchors =>
    if anchors.isEmpty then .error "Won't search for an all-wildcard pattern.".data
    else .ok (Pattern.mk (sort_by_score anchors))

theorem anchorEntropy_single : anchorEntropy [170] = 0 := by
  rw [anchorEntropy]
  apply Finset.sum_eq_zero
  intro b _
  by_cases hb : b = 170
  · subst hb
    have hc : ([170] : List Nat).count 170 = 1 := by decide
    rw [hc]
    have hlen : (([170] : List Nat).length : ℝ) = 1 := by norm_num
    rw [hlen]
    simp [Real.logb_one]
  · have hc : ([170] : List Nat).count b = 0 := by
      rw [List.count_eq_zero]
      intro hmem
      rcases List.mem_cons.mp hmem with h | h
      · exact hb h
      · cases h
    rw [hc]
    simp

theorem anchorEntropy_pair : anchorEntropy [18, 52] = 1 := by
  rw [anchorEntropy]
  have hzero : ∀ x ∈ Finset.range 256, x ∉ ({18, 52} : Finset ℕ) →
      (if 0 < ([18, 52] : List Nat).count x then
        -((([18, 52] : List Nat).count x : ℝ) / (([18, 52] : List Nat).length : ℝ))
          * Real.logb 2 ((([18, 52] : List Nat).count x : ℝ) / (([18, 52] : List Nat).length : ℝ))
       else 0) = 0 := by
    intro x _ hx
    have hc : ([18, 52] : List Nat).count x = 0 := by
      rw [List.count_eq_zero]
      intro hmem
      apply hx
      rcases List.mem_cons.mp hmem with h | h
      · rw [h]; exact Finset.mem_insert_self _ _
      · rcases List.mem_cons.mp h with h2 | h2
        · rw [h2]; exact Finset.mem_insert_of_mem (Finset.mem_singleton_self _)
        · cases h2
    rw [hc]
    simp
  rw [← Finset.sum_subset (by decide : ({18, 52} : Finset ℕ) ⊆ Finset.range 256) hzero]
  rw [Finset.sum_insert (by decide), Finset.sum_singleton]
  have hc18 : ([18, 52] : List Nat).count 18 = 1 := by decide
  have hc52 : ([18, 52] : List Nat).count 52 = 1 := by decide
  have hlen : (([18, 52] : List Nat).length : ℝ) = 2 := by norm_num
  rw [hc18, hc52, hlen]
  have hlog : Real.logb 2 ((1 : ℝ) / 2) = -1 := by
    rw [one_div, Real.logb_inv, Real.logb_self_eq_one (by norm_num)]
  norm_num [hlog]

theorem anchorScore_single (off : Nat) : anchorScore (Anchor.mk off [170]) = -(7 / 2 : ℝ) := by
  rw [anchorScore]
  dsimp only
  have h1 : uniqueCount [170] = 1 := by decide
  have h2 : maxByteCount [170] = 1 := by decide
  rw [h1, h2, anchorEntropy_single, if_pos rfl]
  norm_num

theorem anchorScore_pair (off : Nat) : anchorScore (Anchor.mk off [18, 52]) = 8 := by
  rw [anchorScore]
  dsimp only
  have h1 : uniqueCount [18, 52] = 2 := by decide
  have h2 : maxByteCount [18, 52] = 1 := by decide
  rw [h1, h2, anchorEntropy_pair, if_neg (by norm_num)]
  rw [if_neg (by norm_num)]
  norm_num

theorem sort_low_high (o1 o2 : Nat) :
    sort_by_score [Anchor.mk o1 [170], Anchor.mk o2 [18, 52]]
      = [Anchor.mk o1 [170], Anchor.mk o2 [18, 52]] := by
  rw [sort_by_score]
  simp only [List.insertionSort, List.orderedInsert]
  rw [if_pos]
  rw [anchorScore_single, anchorScore_pair]
  norm_num

theorem sort_high_low (o1 o2 : Nat) :
    sort_by_score [Anchor.mk o1 [18, 52], Anchor.mk o2 [170]]
      = [Anchor.mk o2 [170], Anchor.mk o1 [18, 52]] := by
  rw [sort_by_score]
  simp only [List.insertionSort, List.orderedInsert]
  rw [if_neg]
  rw [anchorScore_pair, anchorScore_single]
  norm_num

deriving instance DecidableEq for Except

/-- C6: the search anchor actually used is NOT the anchor of maximum
score.  For the pattern `AA ?? 12 34`, parsing produces anchors `[AA]`
(score −3.5, all-same and repetition penalties) and `[12 34]` (score 8);
`sort_by_score` sorts ASCENDING (`a.score().partial_cmp(&b.score())`) and
`get_best` takes index 0, so the scan anchors on `[AA]`, the MINIMUM-score
anchor, although `get_best`'s own doc comment promises "the anchor with
the highest score".  The code contradicts its documentation and the spec's
anchor-selection rule. -/
theorem C6_get_best_picks_min :
    parse_scored_anchors ["AA".data, "??".data, "12".data, "34".data]
      = .ok (Pattern.mk [Anchor.mk 0 [170], Anchor.mk 2 [18, 52]])
    ∧ (Pattern.mk [Anchor.mk 0 [170], Anchor.mk 2 [18, 52]]).get_best = Anchor.mk 0 [170]
    ∧ Anchor.mk 2 [18, 52] ∈ (Pattern.mk [Anchor.mk 0 [170], Anchor.mk 2 [18, 52]]).anchors
    ∧ anchorScore ((Pattern.mk [Anchor.mk 0 [170], Anchor.mk 2 [18, 52]]).get_best)
        < anchorScore (Anchor.mk 2 [18, 52]) := by
  have hgo : parseAnchorsGo ["AA".data, "??".data, "12".data, "34".data] 0 [] 0 []
      = .ok [Anchor.mk 0 [170], Anchor.mk 2 [18, 52]] := by decide
  refine ⟨?_, rfl, by simp [Pattern.get_best], ?_⟩
  · rw [parse_scored_anchors, hgo]
    dsimp only [List.isEmpty_cons]
    rw [if_neg (by decide)]
    rw [sort_low_high]
  · show anchorScore (Anchor.mk 0 [170]) < anchorScore (Anchor.mk 2 [18, 52])
    rw [anchorScore_single, anchorScore_pair]
    norm_num

/-! The pattern-occurrence iterator (`PatternIterator`, claim C7). -/

/-- Does `needle` occur in `hay` at position `i`? -/
def substrAt (hay needle : List Nat) (i : Nat) : Bool :=
  decide ((hay.drop i).take needle.length = needle)

/-- First occurrence of `needle` in `hay` at or after position `i`. -/
def findFrom (hay needle : List Nat) (i : Nat) : Option Nat :=
  (List.range' i (hay.length + 1 - i)).find? (fun j => substrAt hay needle j)

/-- All non-overlapping occurrences, leftmost first, each search resuming
past the previous match — the semantics of `memmem::find_iter`.  `fuel`
bounds the recursion; `findAll` supplies `hay.length + 1`, enough for any
non-empty needle. -/
def findAllGo (hay needle : List Nat) : Nat → Nat → List Nat
  | 0, _ => []
  | fuel + 1, i =>
    match findFrom hay needle i with
    | none => []
    | some j => j :: findAllGo hay needle fuel (j + needle.length)

/-- All non-overlapping occurrences of `needle` in `hay`. -/
def findAll (hay needle : List Nat) : List Nat :=
  findAllGo hay needle (hay.length + 1) 0

/-- The anchor-validation loop of `PatternIterator::next`
(`src/commands/pattern_scan.rs` lines 267-285): for each non-best anchor,
compute its position relative to the occurrence; `usize::try_from(...)
.unwrap()` PANICS when that position is negative (`Except.error`); an
anchor running past the chunk's end, or mismatching, disqualifies the
occurrence (`ok false`). -/
def verifyAnchors (mem : List Nat) (best_offset : Int) (occ : Nat) :
    List Anchor → Except Unit Bool
  | [] => .ok true
  | anchor :: rest =>
    let offset : Int := (anchor.offset : Int) - best_offset
    let start_i : Int := (occ : Int) + offset
    if start_i < 0 then .error ()
    else
      let start := start_i.toNat
      let stop := start + anchor.bytes.length
      if mem.length < stop then .ok false
      else if (mem.drop start).take anchor.bytes.length ≠ anchor.bytes then .ok false
      else verifyAnchors mem best_offset occ rest

/-- The drained `PatternIterator` (`next` called to exhaustion): for each
occurrence of the best anchor, validate the other anchors, then yield
`occurrence − best_offset`, whose `usize::try_from(...).unwrap()` also
panics when negative. -/
def patternScanGo (p : Pattern) (mem : List Nat) : List Nat → Except Unit (List Nat)
  | [] => .ok []
  | occ :: rest =>
    match verifyAnchors mem (p.get_best.offset : Int) occ (p.anchors.drop 1) with
    | .error e => .error e
    | .ok false => patternScanGo p mem rest
    | .ok true =>
      let yv : Int := (occ : Int) - (p.get_best.offset : Int)
      if yv < 0 then .error ()
      else
        match patternScanGo p mem rest with
        | .error e => .error e
        | .ok tail => .ok (yv.toNat :: tail)

/-- Occurrence offsets of a pattern in one memory chunk
(`Pattern::find_pattern_iter` drained). -/
def patternScan (p : Pattern) (mem : List Nat) : Except Unit (List Nat) :=
  patternScanGo p mem (findAll mem p.get_best.bytes)

/-- C7: the iterator PANICS instead of disqualifying an occurrence whose
other anchor falls off the LEFT end of the chunk.  Pattern `12 34 ?? AA`
parses (with the ascending score sort) to best anchor `[AA]` at offset 3;
in the chunk `[AA 00 00 00]` the best anchor occurs at position 0, the
anchor `[12 34]` would sit at position −3, and
`usize::try_from(occurred_idx + offset).unwrap()` aborts the process —
the claim (and spec section 7: "nothing in the core is process-fatal")
requires the occurrence to be skipped. -/
theorem C7_left_bound_panic :
    parse_scored_anchors ["12".data, "34".data, "??".data, "AA".data]
      = .ok (Pattern.mk [Anchor.mk 3 [170], Anchor.mk 0 [18, 52]])
    ∧ patternScan (Pattern.mk [Anchor.mk 3 [170], Anchor.mk 0 [18, 52]]) [170, 0, 0, 0]
      = .error () := by
  have hgo : parseAnchorsGo ["12".data, "34".data, "??".data, "AA".data] 0 [] 0 []
      = .ok [Anchor.mk 0 [18, 52], Anchor.mk 3 [170]] := by decide
  constructor
  · rw [parse_scored_anchors, hgo]
    dsimp only [List.isEmpty_cons]
    rw [if_neg (by decide)]
    rw [sort_high_low]
  · decide

end Smuggler
